import Mathlib

/-!
Verification development for a small web-scraping repository.

The repository's core is a minimal BeautifulSoup-compatible shim
(`bs4/__init__.py`): an HTML tree builder driven by a tokenizer, a
CSS-selector-subset matcher, and a traversal/query API.  Around it sit
pure helper modules (`src/helpers.py`, `src/kpi1_extract.py`,
`src/kpi3_title_generate.py`).

This file gives a shallow embedding of those components:

* Python strings become `String`, Python lists become `List`,
  `Optional[T]` becomes `Option T`.
* The builder's mutable "current open element" cursor with parent
  pointers becomes an explicit stack of open frames (a zipper): the head
  of the stack is the current open element, the last frame is the
  document root; moving the cursor to a parent closes the top frame into
  the frame below it.  The final tree produced this way coincides with
  the tree the Python code builds by mutation.
* Node identity (Python `id(...)`) becomes the node's path (list of
  child indices) from the queried root, which identifies a tree position
  uniquely.
* Caller-supplied predicates that may raise become functions into
  `Except Unit`; a raised exception is the `.error` case.
* The tokenizer that drives the builder callbacks lives in Python's
  `html.parser.HTMLParser`, outside this repository; it is modelled from
  the spec (see `tokStep` below).
-/

/-- Python whitespace characters for `str.split()` / `str.strip()`
(ASCII subset; the repository's data never relies on the exotic Unicode
space classes). -/
def pyIsSpace (c : Char) : Bool :=
  c = ' ' || c = '\t' || c = '\n' || c = '\r' || c = Char.ofNat 11 || c = Char.ofNat 12

/-- Python `str.strip()` on a character list: drop whitespace from both ends. -/
def pyStripChars (cs : List Char) : List Char :=
  ((cs.dropWhile pyIsSpace).reverse.dropWhile pyIsSpace).reverse

/-- Python `str.strip()`. -/
def pyStrip (s : String) : String :=
  String.mk (pyStripChars s.data)

/-- Python `str.lower()` (ASCII reading), on the character-list model
of strings, so that it is easy to reason about. -/
def pyLower (s : String) : String :=
  String.mk (s.data.map Char.toLower)

/-- Accumulating scanner behind `pyWords`: splits a character list on
runs of whitespace, dropping empty pieces, like Python `str.split()`
with no arguments. -/
def pyWordsAux (acc : List Char) : List Char → List (List Char)
  | [] => if acc.isEmpty then [] else [acc.reverse]
  | c :: rest =>
    if pyIsSpace c then
      if acc.isEmpty then pyWordsAux [] rest
      else acc.reverse :: pyWordsAux [] rest
    else pyWordsAux (c :: acc) rest

/-- Python `str.split()` with no arguments. -/
def pyWords (s : String) : List String :=
  (pyWordsAux [] s.data).map String.mk

/-- Python `" ".join(parts)`. -/
def pyJoinSpace : List String → String
  | [] => ""
  | [x] => x
  | x :: y :: rest => x ++ " " ++ pyJoinSpace (y :: rest)

/-- List prefix test used by the substring check below. -/
def startsList : List Char → List Char → Bool
  | [], _ => true
  | _ :: _, [] => false
  | a :: as, b :: bs => a = b && startsList as bs

/-- Contiguous sublist test used by the substring check below. -/
def subListAt (needle : List Char) : List Char → Bool
  | [] => startsList needle []
  | c :: rest => startsList needle (c :: rest) || subListAt needle rest

/-- Python `needle in haystack` on strings (contiguous substring test). -/
def pyInStr (needle haystack : String) : Bool :=
  subListAt needle.data haystack.data

/-- Python `str.lstrip("./")`: drop leading `.` and `/` characters. -/
def pyLstripDotSlash (s : String) : String :=
  String.mk (s.data.dropWhile (fun c => c = '.' || c = '/'))

/-- Python `str.strip("\"'")`: drop quote characters of either kind from
both ends. -/
def pyStripQuotes (cs : List Char) : List Char :=
  let isQ : Char → Bool := fun c => c = Char.ofNat 34 || c = Char.ofNat 39
  ((cs.dropWhile isQ).reverse.dropWhile isQ).reverse

/-- The placeholder value the helper module uses for missing data. -/
def UNKNOWN : String := "不明"

/-- Translation of `helpers.clean_text`: `None` and empty strings give
the placeholder, otherwise whitespace is normalized by splitting into
words and re-joining with single spaces, with a whitespace-only input
again giving the placeholder. -/
def clean_text (value : Option String) : String :=
  match value with
  | none => UNKNOWN
  | some s =>
    if s = "" then UNKNOWN
    else
      let joined := pyJoinSpace (pyWords s)
      if joined = "" then UNKNOWN else joined

/-- The void-element set from `bs4/__init__.py` (`VOID_ELEMENTS`). -/
def VOID_ELEMENTS : List String :=
  ["area", "base", "br", "col", "embed", "hr", "img", "input", "link",
   "meta", "param", "source", "track", "wbr"]

mutual
/-- Translation of `bs4._Node`: an element with a name, an attribute
mapping (an insertion-ordered association list with unique keys, like a
Python dict), and an ordered child sequence. -/
inductive _Node where
  | mk (name : String) (attrs : List (String × String)) (children : List NodeChild)
/-- A child of a `_Node` is either an element node or a raw text run
(the Python `Union[_Node, str]`). -/
inductive NodeChild where
  | elem (n : _Node)
  | text (s : String)
end

/-- Name of a node. -/
def _Node.name : _Node → String
  | .mk n _ _ => n

/-- Attribute mapping of a node. -/
def _Node.attrs : _Node → List (String × String)
  | .mk _ a _ => a

/-- Children of a node. -/
def _Node.children : _Node → List NodeChild
  | .mk _ _ c => c

/-- Python dict lookup `d.get(k)` on an association list with unique
keys: the first binding of the key, if any. -/
def dictGet (d : List (String × String)) (k : String) : Option String :=
  match d.find? (fun p => p.1 = k) with
  | some p => some p.2
  | none => none

/-- Python dict insertion `d[k] = v`: overwrite the value in place if
the key is present (keeping its position), else append the binding. -/
def dictInsert (d : List (String × String)) (k v : String) : List (String × String) :=
  if d.any (fun p => p.1 = k) then d.map (fun p => if p.1 = k then (k, v) else p)
  else d ++ [(k, v)]

/-- Translation of the dict comprehension in `_Node.__init__`:
`{key: value or "" for key, value in attrs}` — missing values default to
the empty string, duplicate keys keep their first position with the last
value. -/
def mkAttrs (attrs : List (String × Option String)) : List (String × String) :=
  attrs.foldl (fun d kv => dictInsert d kv.1 (kv.2.getD "")) []

/-- Translation of `html.escape(value, quote=True)` as used by
`_Node.render`: escape `&`, `<`, `>` and `"`. -/
def escapeChar (c : Char) : String :=
  if c = '&' then "&amp;"
  else if c = '<' then "&lt;"
  else if c = '>' then "&gt;"
  else if c = Char.ofNat 34 then "&quot;"
  else String.singleton c

/-- String version of `escapeChar`. -/
def htmlEscape (s : String) : String :=
  String.mk (s.data.flatMap (fun c => (escapeChar c).data))

/-- Rendering of one attribute as ` name="escaped value"`, as in
`_Node.render`. -/
def renderAttr (kv : String × String) : String :=
  " " ++ kv.1 ++ "=" ++ String.singleton (Char.ofNat 34) ++ htmlEscape kv.2
      ++ String.singleton (Char.ofNat 34)

/-- Rendering of a whole attribute mapping. -/
def renderAttrs : List (String × String) → String
  | [] => ""
  | kv :: rest => renderAttr kv ++ renderAttrs rest

mutual
/-- Translation of `_Node.render`: void elements render as a single
tag, other elements wrap their rendered contents in an open and a close
tag. -/
def _Node.render : _Node → String
  | .mk name attrs children =>
    if VOID_ELEMENTS.contains name then
      "<" ++ name ++ renderAttrs attrs ++ ">"
    else
      "<" ++ name ++ renderAttrs attrs ++ ">" ++ renderChildren children
        ++ "</" ++ name ++ ">"
/-- Translation of `_Node.render_contents`: concatenate rendered child
elements and raw (unescaped) text runs. -/
def renderChildren : List NodeChild → String
  | [] => ""
  | .elem n :: rest => n.render ++ renderChildren rest
  | .text s :: rest => s ++ renderChildren rest
end

/-- The `render_contents` method on a node. -/
def _Node.render_contents (n : _Node) : String :=
  renderChildren n.children

mutual
/-- Translation of `_Node.text_content`: concatenation of all text runs
in document order. -/
def _Node.text_content : _Node → String
  | .mk _ _ children => textContentChildren children
/-- Text content of a child list. -/
def textContentChildren : List NodeChild → String
  | [] => ""
  | .elem n :: rest => n.text_content ++ textContentChildren rest
  | .text s :: rest => s ++ textContentChildren rest
end

/-- One open element on the builder's stack: its name, attributes, and
the children collected so far. -/
structure Frame where
  name : String
  attrs : List (String × String)
  children : List NodeChild

/-- Close a frame into a node. -/
def Frame.toNode (f : Frame) : _Node :=
  .mk f.name f.attrs f.children

/-- Close the top frame `f` into its parent frame `g`: the finished
element becomes the parent's next child.  This is the zipper image of
moving the builder's cursor from an element to its parent. -/
def closeInto (f g : Frame) : Frame :=
  { g with children := g.children ++ [.elem f.toNode] }

/-- The initial builder stack: just the synthetic document root. -/
def initStack : List Frame :=
  [⟨"__root__", [], []⟩]

/-- Append a child to the current open element (the top of the stack). -/
def appendChildTop (c : NodeChild) : List Frame → List Frame
  | [] => []
  | f :: rest => { f with children := f.children ++ [c] } :: rest

/-- Translation of `_HTMLTreeBuilder.handle_starttag`: the new element
becomes a child of the cursor; if its (lowercased) name is not a void
element the cursor moves into it, which on the stack is pushing a new
open frame. -/
def handle_starttag (tag : String) (attrs : List (String × Option String))
    (st : List Frame) : List Frame :=
  if VOID_ELEMENTS.contains (pyLower tag) then
    appendChildTop (.elem (.mk tag (mkAttrs attrs) [])) st
  else
    ⟨tag, mkAttrs attrs, []⟩ :: st

/-- Translation of `_HTMLTreeBuilder.handle_startendtag`: a self-closed
element is appended as a child and the cursor stays put. -/
def handle_startendtag (tag : String) (attrs : List (String × Option String))
    (st : List Frame) : List Frame :=
  appendChildTop (.elem (.mk tag (mkAttrs attrs) [])) st

/-- The `while` loop of `handle_endtag`: starting from the current open
element `f` with the remaining stack below it, walk upward (closing
frames) while the current element is not the root and its lowercased
name differs from the (already lowercased) tag. -/
def endtagWalk (tag : String) (f : Frame) : List Frame → Frame × List Frame
  | [] => (f, [])
  | g :: rest =>
    if pyLower f.name = tag then (f, g :: rest)
    else endtagWalk tag (closeInto f g) rest

/-- Translation of `_HTMLTreeBuilder.handle_endtag`: lowercase the tag,
walk the cursor upward to the first open element with a matching name,
and, when the walk stopped below the root, move the cursor once more to
that element's parent. -/
def handle_endtag (tag : String) (st : List Frame) : List Frame :=
  match st with
  | [] => []
  | f :: rest =>
    match endtagWalk (pyLower tag) f rest with
    | (f', []) => [f']
    | (f', g :: rest') => closeInto f' g :: rest'

/-- Translation of `_HTMLTreeBuilder.handle_data`: non-empty text is
appended as a string child of the cursor. -/
def handle_data (data : String) (st : List Frame) : List Frame :=
  if data = "" then st else appendChildTop (.text data) st

/-- Translation of `_HTMLTreeBuilder.handle_comment`: the comment is
appended as an opaque `<!--body-->` text child. -/
def handle_comment (data : String) (st : List Frame) : List Frame :=
  appendChildTop (.text ("<!--" ++ data ++ "-->")) st

/-- Fold the whole remaining stack down into a single (root) frame, as
happens implicitly when parsing ends with elements still open. -/
def finishStack (f : Frame) : List Frame → Frame
  | [] => f
  | g :: rest => finishStack (closeInto f g) rest

/-- The name of the current open element (the cursor) of a builder
stack. -/
def currentName (st : List Frame) : String :=
  match st with
  | [] => ""
  | f :: _ => f.name

/-- The chain of open element names from the cursor up to, but not
including, the root: on the stack these are all frames except the last
one. -/
def openNames (st : List Frame) : List String :=
  (st.map Frame.name).dropLast

/-- Decimal digit value. -/
def decDigit (c : Char) : Option Nat :=
  if c.isDigit then some (c.toNat - 48) else none

/-- Hexadecimal digit value. -/
def hexDigit (c : Char) : Option Nat :=
  if c.isDigit then some (c.toNat - 48)
  else if 'a' ≤ c && c ≤ 'f' then some (c.toNat - 87)
  else if 'A' ≤ c && c ≤ 'F' then some (c.toNat - 55)
  else none

/-- Parse a non-empty digit string in the given base, failing on any
invalid digit (like Python `int(s, base)`). -/
def parseNatBase (digit : Char → Option Nat) (base : Nat) (cs : List Char) : Option Nat :=
  if cs.isEmpty then none
  else cs.foldlM (fun acc c => (digit c).map (fun d => acc * base + d)) 0

/-- Modelled from the spec: the entity table of the tokenizer that
feeds the tree builder (Python's `html.parser` and `html.entities`,
which are outside this repository).  A named reference decodes to its
character, a numeric reference (`#ddd` or `#xhh`) to the corresponding
Unicode character, and an unknown or invalid reference to `?`. -/
def entLookup (name : String) : String :=
  if name = "amp" then "&"
  else if name = "lt" then "<"
  else if name = "gt" then ">"
  else if name = "quot" then String.singleton (Char.ofNat 34)
  else if name = "apos" then String.singleton (Char.ofNat 39)
  else
    match name.data with
    | '#' :: rest =>
      let hexMark := rest.head? = some 'x' || rest.head? = some 'X'
      let digits := if hexMark then rest.dropWhile (fun c => c = 'x' || c = 'X') else rest
      let base := if hexMark then 16 else 10
      let digit := if hexMark then hexDigit else decDigit
      match parseNatBase digit base digits with
      | some n => if _h : n.isValidChar then String.singleton (Char.ofNat n) else "?"
      | none => "?"
    | _ => "?"

/-- Modelled from the spec: entity decoding inside attribute values, as
performed by the tokenizer (outside this repository) before it hands
attribute pairs to the builder.  The scanner state is `some acc` while
inside a candidate `&...;` reference. -/
def decodeEntsLoop : Option (List Char) → List Char → List Char
  | none, [] => []
  | none, c :: rest =>
    if c = '&' then decodeEntsLoop (some []) rest
    else c :: decodeEntsLoop none rest
  | some acc, [] => '&' :: acc.reverse
  | some acc, c :: rest =>
    if c = ';' then (entLookup (String.mk acc.reverse)).data ++ decodeEntsLoop none rest
    else if c.isAlphanum || c = '#' then decodeEntsLoop (some (c :: acc)) rest
    else if c = '&' then '&' :: acc.reverse ++ decodeEntsLoop (some []) rest
    else '&' :: acc.reverse ++ c :: decodeEntsLoop none rest

/-- Modelled from the spec: entity decoding of an attribute value. -/
def decodeEnts (s : String) : String :=
  String.mk (decodeEntsLoop none s.data)

/-- Modelled from the spec: the four token kinds the tokenizer
recognizes — start tags (possibly self-closing), end tags, text runs
(with references already decoded), and comments. -/
inductive Tok where
  | start (name : String) (attrs : List (String × Option String)) (selfClosing : Bool)
  | endT (name : String)
  | textT (s : String)
  | commentT (s : String)

/-- Modelled from the spec: the scanner state of the left-to-right
tokenizer (Python's `html.parser.HTMLParser`, outside this repository).
Accumulator lists hold characters in reverse order. -/
inductive TokMode where
  | text (acc : List Char)
  | ent (acc : List Char)
  | lt
  | bang
  | bang2
  | comm (acc : List Char)
  | commD (acc : List Char)
  | commDD (acc : List Char)
  | decl
  | closing (acc : List Char)
  | tname (acc : List Char)
  | battrs (name : String) (attrs : List (String × Option String))
  | aname (name : String) (attrs : List (String × Option String)) (acc : List Char)
  | aafter (name : String) (attrs : List (String × Option String)) (an : String)
  | aeq (name : String) (attrs : List (String × Option String)) (an : String)
  | adq (name : String) (attrs : List (String × Option String)) (an : String) (acc : List Char)
  | asq (name : String) (attrs : List (String × Option String)) (an : String) (acc : List Char)
  | abare (name : String) (attrs : List (String × Option String)) (an : String) (acc : List Char)
  | slashM (name : String) (attrs : List (String × Option String))

/-- Characters allowed inside a tag name. -/
def isNameC (c : Char) : Bool :=
  c.isAlphanum || c = '-' || c = '_' || c = ':'

/-- Emit a pending text run (if non-empty) in front of later tokens. -/
def emitText (acc : List Char) (toks : List Tok) : List Tok :=
  if acc.isEmpty then toks else .textT (String.mk acc.reverse) :: toks

/-- Tokens emitted for scanner state left over at end of input:
pending text (and a dangling reference) is flushed, incomplete tags are
dropped. -/
def tokFlush : TokMode → List Tok
  | .text acc => if acc.isEmpty then [] else [.textT (String.mk acc.reverse)]
  | .ent acc => [.textT (String.mk ('&' :: acc.reverse))]
  | _ => []

/-- Modelled from the spec: the left-to-right tokenizer driving the
tree builder (Python's `html.parser.HTMLParser`, outside this
repository).  It recognizes start tags `<tag attr="v" ...>` (with
single-quoted, double-quoted or bare attribute values, and a trailing
`/` marking self-closing tags), end tags `</tag>`, comments
`<!--body-->`, other `<!...>` declarations (dropped), entity and
numeric character references in text and attribute values, and plain
text runs.  Tag and attribute names are lowercased.  A `<` that opens
no recognizable construct is treated as text. -/
def tokRun : TokMode → List Char → List Tok
  | m, [] => tokFlush m
  | .text acc, c :: rest =>
    if c = '<' then emitText acc (tokRun .lt rest)
    else if c = '&' then emitText acc (tokRun (.ent []) rest)
    else tokRun (.text (c :: acc)) rest
  | .ent acc, c :: rest =>
    if c = ';' then .textT (entLookup (String.mk acc.reverse)) :: tokRun (.text []) rest
    else if c.isAlphanum || c = '#' then tokRun (.ent (c :: acc)) rest
    else if c = '<' then .textT (String.mk ('&' :: acc.reverse)) :: tokRun .lt rest
    else if c = '&' then .textT (String.mk ('&' :: acc.reverse)) :: tokRun (.ent []) rest
    else tokRun (.text (c :: (acc ++ ['&']))) rest
  | .lt, c :: rest =>
    if c = '/' then tokRun (.closing []) rest
    else if c = '!' then tokRun .bang rest
    else if c.isAlpha then tokRun (.tname [c]) rest
    else if c = '<' then .textT "<" :: tokRun .lt rest
    else if c = '&' then .textT "<" :: tokRun (.ent []) rest
    else tokRun (.text [c, '<']) rest
  | .bang, c :: rest =>
    if c = '-' then tokRun .bang2 rest
    else if c = '>' then tokRun (.text []) rest
    else tokRun .decl rest
  | .bang2, c :: rest =>
    if c = '-' then tokRun (.comm []) rest
    else if c = '>' then tokRun (.text []) rest
    else tokRun .decl rest
  | .decl, c :: rest =>
    if c = '>' then tokRun (.text []) rest
    else tokRun .decl rest
  | .comm acc, c :: rest =>
    if c = '-' then tokRun (.commD acc) rest
    else tokRun (.comm (c :: acc)) rest
  | .commD acc, c :: rest =>
    if c = '-' then tokRun (.commDD acc) rest
    else tokRun (.comm (c :: '-' :: acc)) rest
  | .commDD acc, c :: rest =>
    if c = '>' then .commentT (String.mk acc.reverse) :: tokRun (.text []) rest
    else if c = '-' then tokRun (.commDD ('-' :: acc)) rest
    else tokRun (.comm (c :: '-' :: '-' :: acc)) rest
  | .closing acc, c :: rest =>
    if c = '>' then .endT (pyLower (String.mk acc.reverse)) :: tokRun (.text []) rest
    else tokRun (.closing (c :: acc)) rest
  | .tname acc, c :: rest =>
    if isNameC c then tokRun (.tname (c :: acc)) rest
    else if c = '>' then .start (pyLower (String.mk acc.reverse)) [] false :: tokRun (.text []) rest
    else if c = '/' then tokRun (.slashM (pyLower (String.mk acc.reverse)) []) rest
    else tokRun (.battrs (pyLower (String.mk acc.reverse)) []) rest
  | .battrs name attrs, c :: rest =>
    if pyIsSpace c then tokRun (.battrs name attrs) rest
    else if c = '>' then .start name attrs false :: tokRun (.text []) rest
    else if c = '/' then tokRun (.slashM name attrs) rest
    else tokRun (.aname name attrs [c]) rest
  | .aname name attrs acc, c :: rest =>
    if pyIsSpace c then tokRun (.aafter name attrs (pyLower (String.mk acc.reverse))) rest
    else if c = '=' then tokRun (.aeq name attrs (pyLower (String.mk acc.reverse))) rest
    else if c = '>' then
      .start name (attrs ++ [((pyLower (String.mk acc.reverse)), none)]) false :: tokRun (.text []) rest
    else if c = '/' then tokRun (.slashM name (attrs ++ [((pyLower (String.mk acc.reverse)), none)])) rest
    else tokRun (.aname name attrs (c :: acc)) rest
  | .aafter name attrs an, c :: rest =>
    if pyIsSpace c then tokRun (.aafter name attrs an) rest
    else if c = '=' then tokRun (.aeq name attrs an) rest
    else if c = '>' then .start name (attrs ++ [(an, none)]) false :: tokRun (.text []) rest
    else if c = '/' then tokRun (.slashM name (attrs ++ [(an, none)])) rest
    else tokRun (.aname name (attrs ++ [(an, none)]) [c]) rest
  | .aeq name attrs an, c :: rest =>
    if pyIsSpace c then tokRun (.aeq name attrs an) rest
    else if c = Char.ofNat 34 then tokRun (.adq name attrs an []) rest
    else if c = Char.ofNat 39 then tokRun (.asq name attrs an []) rest
    else if c = '>' then .start name (attrs ++ [(an, some "")]) false :: tokRun (.text []) rest
    else tokRun (.abare name attrs an [c]) rest
  | .adq name attrs an acc, c :: rest =>
    if c = Char.ofNat 34 then
      tokRun (.battrs name (attrs ++ [(an, some (decodeEnts (String.mk acc.reverse)))])) rest
    else tokRun (.adq name attrs an (c :: acc)) rest
  | .asq name attrs an acc, c :: rest =>
    if c = Char.ofNat 39 then
      tokRun (.battrs name (attrs ++ [(an, some (decodeEnts (String.mk acc.reverse)))])) rest
    else tokRun (.asq name attrs an (c :: acc)) rest
  | .abare name attrs an acc, c :: rest =>
    if pyIsSpace c then
      tokRun (.battrs name (attrs ++ [(an, some (decodeEnts (String.mk acc.reverse)))])) rest
    else if c = '>' then
      .start name (attrs ++ [(an, some (decodeEnts (String.mk acc.reverse)))]) false :: tokRun (.text []) rest
    else tokRun (.abare name attrs an (c :: acc)) rest
  | .slashM name attrs, c :: rest =>
    if c = '>' then .start name attrs true :: tokRun (.text []) rest
    else if pyIsSpace c then tokRun (.battrs name attrs) rest
    else tokRun (.aname name attrs [c]) rest

/-- Modelled from the spec: tokenization of a whole markup string. -/
def tokenize (s : String) : List Tok :=
  tokRun (.text []) s.data

/-- Dispatch one token to the matching builder callback, mirroring how
the tokenizer drives `_HTMLTreeBuilder`. -/
def stepTok (st : List Frame) (t : Tok) : List Frame :=
  match t with
  | .start name attrs false => handle_starttag name attrs st
  | .start name attrs true => handle_startendtag name attrs st
  | .endT name => handle_endtag name st
  | .textT s => handle_data s st
  | .commentT s => handle_comment s st

/-- Run the builder over a token stream from the initial stack. -/
def buildStack (toks : List Tok) : List Frame :=
  toks.foldl stepTok initStack

/-- Translation of `BeautifulSoup.__init__`: build the document tree
for a markup string (tokenize, feed the builder, close all elements
still open at end of input). -/
def parseDoc (markup : String) : _Node :=
  match buildStack (tokenize markup) with
  | [] => Frame.toNode ⟨"__root__", [], []⟩
  | f :: rest => (finishStack f rest).toNode

/-- Translation of `bs4._Selector`: an immutable parsed predicate with
optional tag, id, class list, and a single attribute test. -/
structure _Selector where
  tag : Option String := none
  id : Option String := none
  classes : Option (List String) := none
  attr_name : Option String := none
  attr_value : Option String := none
  attr_op : Option String := none

/-- Python truthiness of an `Optional[str]`: `None` and the empty
string are falsy. -/
def truthyOS : Option String → Bool
  | none => false
  | some s => !(s == "")

/-- Python truthiness of an `Optional[List[str]]`: `None` and the empty
list are falsy. -/
def truthyOL : Option (List String) → Bool
  | none => false
  | some [] => false
  | some (_ :: _) => true

/-- Translation of `_Selector.matches`, keeping the early-return
structure of the source: the root never matches; a falsy (absent or
empty) field skips its check; tag comparison is lowercased; id, class
and attribute comparisons are exact; the attribute clause requires the
attribute to be present and then applies the operator. -/
def _Selector.matches (s : _Selector) (n : _Node) : Bool :=
  if n.name == "__root__" then false
  else if truthyOS s.tag && !(pyLower n.name == pyLower (s.tag.getD "")) then false
  else if truthyOS s.id && !(dictGet n.attrs "id" == s.id) then false
  else if truthyOL s.classes
      && !((s.classes.getD []).all fun cls =>
             (pyWords ((dictGet n.attrs "class").getD "")).contains cls) then false
  else if truthyOS s.attr_name then
    match dictGet n.attrs (s.attr_name.getD "") with
    | none => false
    | some attr_val =>
      if s.attr_op == some "=" then attr_val == s.attr_value.getD ""
      else if s.attr_op == some "*=" && truthyOS s.attr_value then
        pyInStr (s.attr_value.getD "") attr_val
      else true
  else true

/-- Word characters of the id/class token pattern in
`_parse_selector` (the regexes `#([\w-]+)` and `\.([\w-]+)`, ASCII
reading of `\w`). -/
def selWordChar (c : Char) : Bool :=
  c.isAlphanum || c = '_' || c = '-'

/-- Characters of the type-selector pattern `[a-zA-Z0-9_:-]+`. -/
def selTagChar (c : Char) : Bool :=
  c.isAlphanum || c = '_' || c = ':' || c = '-'

/-- Try to read a quoted attribute value alternative of
`_selector_attr_re` (`"[^"]*"` or `'[^']*'`) followed by the closing
`]`; returns the matched value token (quotes included) and the rest of
the input after `]`. -/
def tryQuotedVal (q : Char) (cs : List Char) : Option (List Char × List Char) :=
  match cs with
  | [] => none
  | c :: rest =>
    if c = q then
      let inner := rest.takeWhile (fun d => !(d = q))
      match rest.drop inner.length with
      | d :: after =>
        if d = q then
          match after with
          | e :: r => if e = ']' then some (q :: (inner ++ [q]), r) else none
          | [] => none
        else none
      | [] => none
    else none

/-- Translation of one application of `_selector_attr_re` at the cursor
(after the opening `[`).  The name pattern `[^=\]]+` is greedy and `*`
is an allowed name character, so on input like `[a*=b]` the star is
consumed by the name and the operator alternative `*=` can never
match: whenever the regex succeeds the retained operator is `=` (after
`=`) or absent (bare `[name]`); the regex engine's backtracking never
turns a failure of this greedy reading into a success.  Returns the
stripped name, operator, stripped value, and the rest after `]`. -/
def parseAttrClause (cs : List Char) :
    Option (String × Option String × Option String × List Char) :=
  let nameRun := cs.takeWhile (fun c => !(c = '=' || c = ']'))
  if nameRun.isEmpty then none
  else
    match cs.drop nameRun.length with
    | ']' :: r => some (pyStrip (String.mk nameRun), none, none, r)
    | '=' :: r =>
      let r2 := r.dropWhile pyIsSpace
      let quoted :=
        match tryQuotedVal (Char.ofNat 34) r2 with
        | some v => some v
        | none => tryQuotedVal (Char.ofNat 39) r2
      let value? :=
        match quoted with
        | some v => some v
        | none =>
          let bare := r2.takeWhile (fun d => !(d = ']'))
          if bare.isEmpty then none
          else
            match r2.drop bare.length with
            | ']' :: r' => some (bare, r')
            | _ => none
      match value? with
      | some (tok, r') =>
        some (pyStrip (String.mk nameRun), some "=",
              some (String.mk (pyStripQuotes tok)), r')
      | none => none
    | _ => none

/-- Accumulator for `_parse_selector`'s scanning loop. -/
structure SelParts where
  tag : Option String
  sel_id : Option String
  classes : List String
  attr_name : Option String
  attr_value : Option String
  attr_op : Option String

/-- Package the accumulated parts (`classes or None`). -/
def finishSel (p : SelParts) : _Selector :=
  ⟨p.tag, p.sel_id, (if p.classes.isEmpty then none else some p.classes),
   p.attr_name, p.attr_value, p.attr_op⟩

/-- The scanning loop of `_parse_selector`: consume `#id`, `.class`,
`[attr...]` or a type-selector token at the cursor, stopping at the
first unrecognized position.  Fuel bounds the iteration count; each
step consumes at least one character, so `length + 1` fuel suffices. -/
def parseSelLoop : Nat → List Char → SelParts → _Selector
  | 0, _, p => finishSel p
  | _ + 1, [], p => finishSel p
  | fuel + 1, '#' :: rest, p =>
    let w := rest.takeWhile selWordChar
    if w.isEmpty then finishSel p
    else parseSelLoop fuel (rest.drop w.length) { p with sel_id := some (String.mk w) }
  | fuel + 1, '.' :: rest, p =>
    let w := rest.takeWhile selWordChar
    if w.isEmpty then finishSel p
    else parseSelLoop fuel (rest.drop w.length) { p with classes := p.classes ++ [String.mk w] }
  | fuel + 1, '[' :: rest, p =>
    match parseAttrClause rest with
    | some (an, op, av, rest') =>
      parseSelLoop fuel rest' { p with attr_name := some an, attr_op := op, attr_value := av }
    | none => finishSel p
  | fuel + 1, c :: rest, p =>
    if selTagChar c then
      let w := (c :: rest).takeWhile selTagChar
      parseSelLoop fuel ((c :: rest).drop w.length) { p with tag := some (String.mk w) }
    else finishSel p

/-- Translation of `_parse_selector`. -/
def _parse_selector (selector : String) : _Selector :=
  let t := pyStrip selector
  parseSelLoop (t.data.length + 1) t.data ⟨none, none, [], none, none, none⟩

mutual
/-- Translation of `_iter_nodes` (with `include_self=False` at the top
call, as every call site effectively uses): the document-order paths of
all descendant elements of a node.  An element named `__root__` is not
itself yielded (the `include_self` guard in the source) but its
descendants are. -/
def nodeDescPaths : _Node → List (List Nat)
  | .mk _ _ cs => childPathsAux 0 cs
/-- Paths contributed by a child list starting at index `i`. -/
def childPathsAux : Nat → List NodeChild → List (List Nat)
  | _, [] => []
  | i, .elem m :: rest =>
    ((if m.name == "__root__" then [] else [[i]]) ++ (nodeDescPaths m).map (fun p => i :: p))
      ++ childPathsAux (i + 1) rest
  | i, .text _ :: rest => childPathsAux (i + 1) rest
end

/-- Resolve a path to the node it denotes, if it exists and every step
goes through an element child. -/
def nodeAt : _Node → List Nat → Option _Node
  | n, [] => some n
  | n, i :: p =>
    match n.children.get? i with
    | some (.elem m) => nodeAt m p
    | _ => none

/-- The `name` argument of `find` / `find_all`: absent, a tag-name
string, or a caller-supplied predicate that may raise (`.error`). -/
inductive NameArg where
  | noArg
  | byStr (s : String)
  | byFun (f : _Node → Except Unit Bool)

/-- One expected value in the `attrs` argument: a literal string or a
caller-supplied predicate over the (possibly missing) attribute value
that may raise (`.error`). -/
inductive AttrExpect where
  | lit (v : String)
  | byFun (f : Option String → Except Unit Bool)

/-- Evaluate a possibly-raising predicate result; an exception counts
as a non-match (the `except Exception: return False` in the source). -/
def runPred (r : Except Unit Bool) : Bool :=
  match r with
  | .ok b => b
  | .error _ => false

/-- Translation of `_match_name`. -/
def _match_name (n : _Node) (name : NameArg) : Bool :=
  match name with
  | .noArg => true
  | .byFun f => runPred (f n)
  | .byStr s => pyLower n.name == pyLower s

/-- Translation of `_match_attrs`: all supplied clauses must match;
a literal compares against the present attribute value, a predicate
receives the value or `none` for a missing attribute. -/
def _match_attrs (n : _Node) (attrs : Option (List (String × AttrExpect))) : Bool :=
  match attrs with
  | none => true
  | some l =>
    l.all fun ke =>
      let value := dictGet n.attrs ke.1
      match ke.2 with
      | .byFun f => runPred (f value)
      | .lit v => value == some v

/-- The filter applied to each iterated node in `find_all`. -/
def matchFilter (root : _Node) (name : NameArg) (attrs : Option (List (String × AttrExpect)))
    (p : List Nat) : Bool :=
  match nodeAt root p with
  | some n => _match_name n name && _match_attrs n attrs
  | none => false

/-- Translation of `find_all` (on `BeautifulSoup` and on `Tag` alike):
filter the document-order descendant iteration of the subject node. -/
def find_all (root : _Node) (name : NameArg) (attrs : Option (List (String × AttrExpect))) :
    List (List Nat) :=
  (nodeDescPaths root).filter (matchFilter root name attrs)

/-- Translation of `find`: the first match of `find_all`, or `none`. -/
def find (root : _Node) (name : NameArg) (attrs : Option (List (String × AttrExpect))) :
    Option (List Nat) :=
  (find_all root name attrs).head?

/-- The selector-list splitting in `select`:
`[part.strip() for part in selector.split(",") if part.strip()]`. -/
def selectGroups (selector : String) : List String :=
  ((selector.splitOn ",").map pyStrip).filter (fun s => !(s == ""))

/-- The inner loop of `select` for one compound selector: walk the
iteration order, skipping nodes already seen, and record fresh
matches both in `seen` and in `results`. -/
def selectInner (root : _Node) (parsed : _Selector) (iter : List (List Nat))
    (seen results : List (List Nat)) : List (List Nat) × List (List Nat) :=
  match iter with
  | [] => (seen, results)
  | p :: rest =>
    if seen.contains p then selectInner root parsed rest seen results
    else
      match nodeAt root p with
      | some n =>
        if parsed.matches n then
          selectInner root parsed rest (seen ++ [p]) (results ++ [p])
        else selectInner root parsed rest seen results
      | none => selectInner root parsed rest seen results

/-- Translation of `select`: split the selector list on commas, then
run each compound selector over the same document-order iteration,
de-duplicating by node identity across groups. -/
def select (root : _Node) (selector : String) : List (List Nat) :=
  let selectors := selectGroups selector
  let iter := nodeDescPaths root
  (selectors.foldl
    (fun acc selItem => selectInner root (_parse_selector selItem) iter acc.1 acc.2)
    ([], [])).2

/-- Translation of `select_one`. -/
def select_one (root : _Node) (selector : String) : Option (List Nat) :=
  (select root selector).head?

/-- Translation of `get_text`. -/
def get_text (n : _Node) (strip : Bool) : String :=
  let text := n.text_content
  if strip then pyStrip text else text

/-- Scan the siblings after a node (starting at index `j` in the
parent) for the value of `next_sibling`: the first element child, or
the first text run that is not whitespace-only. -/
def scanSiblings (base : List Nat) (j : Nat) : List NodeChild → Option (List Nat ⊕ String)
  | [] => none
  | .elem _ :: _ => some (.inl (base ++ [j]))
  | .text s :: rest =>
    if !(pyStrip s == "") then some (.inr s) else scanSiblings base (j + 1) rest

/-- Translation of `Tag.next_sibling`: look the node up in its parent's
child list and scan the later siblings. -/
def next_sibling (root : _Node) (p : List Nat) : Option (List Nat ⊕ String) :=
  match p.getLast? with
  | none => none
  | some idx =>
    let parentPath := p.dropLast
    match nodeAt root parentPath with
    | none => none
    | some parent => scanSiblings parentPath (idx + 1) (parent.children.drop (idx + 1))

/-- A single-quote string, used to build selector literals without a
quote character in the source text. -/
def sqS : String := String.singleton (Char.ofNat 39)

/-- A heap of attribute dictionaries, for reasoning about the aliasing
behaviour of `Tag.attrs`: each Python dict object is a heap cell, and a
node or a caller holds a reference (index) to a cell. -/
structure DictHeap where
  dicts : List (List (String × String))

/-- Contents of a heap cell. -/
def heapGet (h : DictHeap) (r : Nat) : List (String × String) :=
  (h.dicts.get? r).getD []

/-- Translation of the `Tag.attrs` property
(`return dict(self._node.attrs)`) in the explicit-heap reading: a fresh
dict cell is allocated holding a copy of the contents of the node's
cell, and the reference to the fresh cell is returned. -/
def Tag_attrs (h : DictHeap) (nodeRef : Nat) : DictHeap × Nat :=
  (⟨h.dicts ++ [heapGet h nodeRef]⟩, h.dicts.length)

/-- A mutation of a heap dict: `d[k] = v`. -/
def heapDictSet (h : DictHeap) (r : Nat) (k v : String) : DictHeap :=
  ⟨h.dicts.set r (dictInsert (heapGet h r) k v)⟩

/-- A mutation of a heap dict: `del d[k]` (ignoring the missing-key
error case). -/
def heapDictDel (h : DictHeap) (r : Nat) (k : String) : DictHeap :=
  ⟨h.dicts.set r ((heapGet h r).filter (fun p => !(p.1 == k)))⟩

/-- The result of Python `re.search` as the pattern-matching
collaborator sees it: the full match and the capture groups (a group
that did not participate is `none`). -/
structure MatchRes where
  group0 : String
  groups : List (Option String)

/-- Translation of `helpers.run_regexes`, with the regex engine
(`re.search`, outside this repository) abstracted as the `search`
argument: the first pattern for which `search` produces a match
determines the result — the first truthy (non-`None`, non-empty)
capture group if any, else the full match, both passed through
`clean_text`; if no pattern matches, the placeholder is returned. -/
def run_regexes (search : String → String → Option MatchRes) (text : String) :
    List String → String
  | [] => UNKNOWN
  | pattern :: rest =>
    match search pattern text with
    | some m =>
      match (m.groups.filterMap id).filter (fun g => !(g == "")) with
      | g :: _ => clean_text (some g)
      | [] => clean_text (some m.group0)
    | none => run_regexes search text rest

/-- Python `specs.get(k) if isinstance(specs, dict) else None`: a
non-dict argument is modelled as `none`. -/
def spec_get (specs : Option (List (String × String))) (k : String) : Option String :=
  match specs with
  | none => none
  | some d => dictGet d k

/-- Translation of `kpi3_title_generate.generate_title` (the value
stored under the `title` key of the returned dict). -/
def generate_title (specs : Option (List (String × String))) : String :=
  let brand := clean_text (spec_get specs "brand")
  let model := clean_text (spec_get specs "model")
  let inch := clean_text (spec_get specs "inch")
  let width := clean_text (spec_get specs "width")
  let holes := clean_text (spec_get specs "holes")
  let pcd := clean_text (spec_get specs "pcd")
  let offset := clean_text (spec_get specs "offset")
  let title_parts := [brand, model]
    ++ (if !(inch == UNKNOWN) then [inch] else [])
    ++ (if !(width == UNKNOWN) then [width] else [])
    ++ (if !(holes == UNKNOWN) then [holes ++ "H"] else [])
    ++ (if !(pcd == UNKNOWN) then ["PCD" ++ pcd] else [])
    ++ (if !(offset == UNKNOWN) then ["OFFSET" ++ offset] else [])
  let structured := pyJoinSpace
    (title_parts.filter (fun part => !(part == "") && !(part == UNKNOWN)))
  if structured == "" then UNKNOWN else structured

/-- Text of the node a path denotes (paths produced by the query API
always resolve). -/
def getTextAt (root : _Node) (p : List Nat) (strip : Bool) : String :=
  match nodeAt root p with
  | some n => get_text n strip
  | none => ""

/-- Translation of `kpi1_extract._extract_title`. -/
def _extract_title (root : _Node) : String :=
  match find root (.byStr "h1") none with
  | some p => clean_text (some (getTextAt root p false))
  | none =>
    match find root (.byStr "title") none with
    | some p => clean_text (some (getTextAt root p false))
    | none => clean_text none

/-- The class predicate `lambda c: c and "Price" in c` (total, never
raises). -/
def priceClassPred (c : Option String) : Except Unit Bool :=
  .ok (match c with
       | none => false
       | some s => pyInStr "Price" s)

/-- The candidate queries of `_extract_price`. -/
def priceCandidates : List (NameArg × Option (List (String × AttrExpect))) :=
  [(.byStr "span", some [("itemprop", .lit "price")]),
   (.byStr "span", some [("class", .byFun priceClassPred)]),
   (.byStr "div", some [("class", .byFun priceClassPred)])]

/-- The candidate loop of `_extract_price`. -/
def extractPriceGo (root : _Node) : List (NameArg × Option (List (String × AttrExpect))) → String
  | [] => UNKNOWN
  | (nm, attrsQ) :: rest =>
    match find root nm attrsQ with
    | some p => clean_text (some (getTextAt root p false))
    | none => extractPriceGo root rest

/-- Translation of `kpi1_extract._extract_price`. -/
def _extract_price (root : _Node) : String :=
  extractPriceGo root priceCandidates

/-- The label predicate of `_extract_shipping`:
`lambda tag: isinstance(tag, Tag) and tag.get_text(strip=True) == label`
(the isinstance test always holds for the nodes `find` visits; total,
never raises). -/
def shippingPred (label : String) (n : _Node) : Except Unit Bool :=
  .ok (get_text n true == label)

/-- The selector-candidate phase of `_extract_shipping`. -/
def extractShippingSelect (root : _Node) : List (List Nat) → String
  | [] => UNKNOWN
  | p :: rest =>
    let text := clean_text (some (getTextAt root p false))
    if !(text == UNKNOWN) then text else extractShippingSelect root rest

/-- The label phase of `_extract_shipping`: the first label whose cell
has a next sibling yields that sibling, rendered through `get_text` for
an element and taken verbatim for a text run, then cleaned. -/
def extractShippingLabels (root : _Node) : List String → String
  | [] => extractShippingSelect root (select root ".ProductDetail__shipping, .Shipping__value")
  | label :: rest =>
    match find root (.byFun (shippingPred label)) none with
    | some cellPath =>
      match next_sibling root cellPath with
      | some (.inl sibPath) => clean_text (some (getTextAt root sibPath false))
      | some (.inr s) => clean_text (some s)
      | none => extractShippingLabels root rest
    | none => extractShippingLabels root rest

/-- Translation of `kpi1_extract._extract_shipping`. -/
def _extract_shipping (root : _Node) : String :=
  extractShippingLabels root ["送料", "Shipping"]

/-- The candidate loop of `_extract_description`. -/
def extractDescriptionGo (root : _Node) : List String → String
  | [] => UNKNOWN
  | selStr :: rest =>
    match select_one root selStr with
    | some p =>
      match nodeAt root p with
      | some n => n.render_contents
      | none => extractDescriptionGo root rest
    | none => extractDescriptionGo root rest

/-- Translation of `kpi1_extract._extract_description`. -/
def _extract_description (root : _Node) : String :=
  extractDescriptionGo root
    ["#ProductExplanation", "#ProductDescription", ".ProductExplanation",
     "section[itemprop=" ++ sqS ++ "description" ++ sqS ++ "]",
     "div[class*=" ++ sqS ++ "Description" ++ sqS ++ "]"]

/-- Translation of `kpi1_extract._ensure_absolute_url`. -/
def _ensure_absolute_url (src : String) (root : _Node) : String :=
  if src.startsWith "http" then src
  else
    let base_url :=
      match find root (.byStr "base") none with
      | some p =>
        match nodeAt root p with
        | some n =>
          match dictGet n.attrs "href" with
          | some v => v
          | none => ""
        | none => ""
      | none => ""
    let base_url :=
      if !(base_url == "") && !(base_url.endsWith "/") then base_url ++ "/" else base_url
    if !(base_url == "") then base_url ++ pyLstripDotSlash src else src

/-- The chained attribute lookup
`img.get("src") or img.get("data-src") or img.get("data-lazy")`
(Python `or` moves on from `None` and from the empty string). -/
def imgSrc3 (n : _Node) : Option String :=
  let pick := fun (a b : Option String) =>
    match a with
    | some s => if s == "" then b else some s
    | none => b
  pick (dictGet n.attrs "src") (pick (dictGet n.attrs "data-src") (dictGet n.attrs "data-lazy"))

/-- Photo URLs found inside one gallery container. -/
def galleryPhotos (root container : _Node) : List String :=
  (find_all container (.byStr "img") none).filterMap fun p =>
    match nodeAt container p with
    | some img =>
      match imgSrc3 img with
      | some s => if s == "" then none else some (_ensure_absolute_url s root)
      | none => none
    | none => none

/-- The gallery-selector loop of `_extract_photos`. -/
def extractPhotosGallery (root : _Node) : List String → List String
  | [] => []
  | selStr :: rest =>
    match select_one root selStr with
    | some p =>
      match nodeAt root p with
      | some container =>
        let photos := galleryPhotos root container
        if photos.isEmpty then extractPhotosGallery root rest else photos
      | none => extractPhotosGallery root rest
    | none => extractPhotosGallery root rest

/-- The fallback loop of `_extract_photos`: first `<img>` elements
anywhere, stopping once three photos are collected. -/
def extractPhotosFallback (root : _Node) (photos : List String) : List (List Nat) → List String
  | [] => photos
  | p :: rest =>
    let photosNext :=
      match nodeAt root p with
      | some img =>
        match dictGet img.attrs "src" with
        | some s => if s == "" then photos else photos ++ [_ensure_absolute_url s root]
        | none => photos
      | none => photos
    if 3 ≤ photosNext.length then photosNext else extractPhotosFallback root photosNext rest

/-- Translation of `kpi1_extract._extract_photos`. -/
def _extract_photos (root : _Node) : List String :=
  let photos := extractPhotosGallery root
    ["#ProductPhoto", "#ProductImage", ".ProductImage",
     "div[class*=" ++ sqS ++ "Image" ++ sqS ++ "]"]
  if photos.isEmpty then extractPhotosFallback root [] (find_all root (.byStr "img") none)
  else photos

/-- The dictionary `extract_listing` returns. -/
structure Listing where
  title : String
  price : String
  shipping : String
  photos : List String
  description_html : String

/-- Translation of `kpi1_extract.extract_listing`, with the HTTP fetch
collaborator (outside the pure core) abstracted as its result: `none`
models `fetch_html` raising `FetchError`, in which case every field is
the placeholder; otherwise each field is extracted from the fetched
document. -/
def extract_listing (fetched : Option _Node) : Listing :=
  match fetched with
  | none => ⟨UNKNOWN, UNKNOWN, UNKNOWN, [], UNKNOWN⟩
  | some root =>
    ⟨_extract_title root, _extract_price root, _extract_shipping root,
     _extract_photos root, _extract_description root⟩

/-- Whether a child is a raw text run. -/
def isTextChild : NodeChild → Bool
  | .text _ => true
  | .elem _ => false

/-- Names of the element children of a child list, in order (used to
compare element structure across a serialize/re-parse round trip). -/
def elemNames : List NodeChild → List String
  | [] => []
  | .elem m :: rest => m.name :: elemNames rest
  | .text _ :: rest => elemNames rest

/-- A well-formed element name: non-empty, lowercase letters and
digits only, starting with a letter (so the tokenizer reads it back as
a tag name and lowercasing leaves it unchanged). -/
def tagNameOk (s : String) : Prop :=
  s.data ≠ []
  ∧ (∀ c ∈ s.data, (c.isLower || c.isDigit) = true)
  ∧ (∀ c, s.data.head? = some c → c.isAlpha = true)

/-- A well-formed attribute key: non-empty and made of lowercase
letters, digits, `-` or `_` (so the tokenizer reads it back unchanged
and never confuses it with tag-structure characters). -/
def attrKeyOk (s : String) : Prop :=
  s.data ≠ []
  ∧ (∀ c ∈ s.data, (c.isLower || c.isDigit || c = '-' || c = '_') = true)

/-- A well-formed attribute mapping: well-formed keys, no duplicates
(as in any mapping built by `mkAttrs`); values are arbitrary because
rendering escapes them. -/
def attrsOk (attrs : List (String × String)) : Prop :=
  (∀ kv ∈ attrs, attrKeyOk kv.1) ∧ (attrs.map Prod.fst).Nodup

/-- A text run that serializes and re-parses as itself: non-empty and
free of the two characters (`<` and `&`) that `render_contents` emits
unescaped but the tokenizer interprets as markup. -/
def textOk (s : String) : Prop :=
  s ≠ "" ∧ ∀ c ∈ s.data, ¬(c = '<' ∨ c = '&')

/-- No two adjacent text-run children (adjacent runs would merge into
one when re-parsed). -/
def childrenSeparated (cs : List NodeChild) : Prop :=
  List.Chain' (fun a b => ¬(isTextChild a = true ∧ isTextChild b = true)) cs

mutual
/-- The well-formedness invariant under which serialization
round-trips: well-formed name and attributes, void elements childless,
and well-formed, separated children. -/
def wfNode : _Node → Prop
  | .mk name attrs cs =>
    tagNameOk name ∧ attrsOk attrs ∧ (VOID_ELEMENTS.contains name = true → cs = [])
      ∧ childrenSeparated cs ∧ wfChildren cs
/-- Elementwise well-formedness of a child list. -/
def wfChildren : List NodeChild → Prop
  | [] => True
  | .elem m :: rest => wfNode m ∧ wfChildren rest
  | .text s :: rest => textOk s ∧ wfChildren rest
end

/-- Attribute pairs as the tokenizer hands them to the builder. -/
def attrsToks (attrs : List (String × String)) : List (String × Option String) :=
  attrs.map (fun kv => (kv.1, some kv.2))

mutual
/-- The token stream the tokenizer produces for the rendering of one
well-formed node. -/
def toksOfNode : _Node → List Tok
  | .mk name attrs cs =>
    if VOID_ELEMENTS.contains name then [Tok.start name (attrsToks attrs) false]
    else Tok.start name (attrsToks attrs) false :: (toksOfChildren cs ++ [Tok.endT name])
/-- The token stream for the rendering of a child list. -/
def toksOfChildren : List NodeChild → List Tok
  | [] => []
  | .elem m :: rest => toksOfNode m ++ toksOfChildren rest
  | .text s :: rest => Tok.textT s :: toksOfChildren rest
end

/-- Whether the node a path denotes satisfies a parsed selector. -/
def selMatchAt (root : _Node) (parsed : _Selector) (p : List Nat) : Bool :=
  match nodeAt root p with
  | some n => parsed.matches n
  | none => false

/-- All document-order matches of one compound selector over the
descendants of `root`. -/
def docMatches (root : _Node) (g : String) : List (List Nat) :=
  (nodeDescPaths root).filter (selMatchAt root (_parse_selector g))

/-- The ordering the spec describes for `select`: all matches of the
first compound selector in document order, then the matches found
exclusively by each later compound selector, in selector-list order. -/
def selectSpecOrder (root : _Node) (selector : String) : List (List Nat) :=
  (selectGroups selector).foldl
    (fun acc g => acc ++ (docMatches root g).filter (fun p => !(acc.contains p))) []

/-- The components of the generated title as the spec describes them:
the cleaned fields in the fixed order, each included exactly when the
underlying field is known, with the `H` / `PCD` / `OFFSET` decorations
(and no decoration on the width). -/
def titleComponentsSpec (specs : Option (List (String × String))) : List String :=
  let brand := clean_text (spec_get specs "brand")
  let model := clean_text (spec_get specs "model")
  let inch := clean_text (spec_get specs "inch")
  let width := clean_text (spec_get specs "width")
  let holes := clean_text (spec_get specs "holes")
  let pcd := clean_text (spec_get specs "pcd")
  let offset := clean_text (spec_get specs "offset")
  (if brand = UNKNOWN then [] else [brand])
    ++ (if model = UNKNOWN then [] else [model])
    ++ (if inch = UNKNOWN then [] else [inch])
    ++ (if width = UNKNOWN then [] else [width])
    ++ (if holes = UNKNOWN then [] else [holes ++ "H"])
    ++ (if pcd = UNKNOWN then [] else ["PCD" ++ pcd])
    ++ (if offset = UNKNOWN then [] else ["OFFSET" ++ offset])


/-- The tag clause of a selector as the spec states it: absent (or
empty) means vacuously true, otherwise the tag is compared
case-insensitively. -/
def tagClause (s : _Selector) (n : _Node) : Bool :=
  match s.tag with
  | none => true
  | some t => if t = "" then true else pyLower n.name == pyLower t

/-- The id clause: absent (or empty) means vacuously true, otherwise
the id attribute must equal the required id exactly. -/
def idClause (s : _Selector) (n : _Node) : Bool :=
  match s.id with
  | none => true
  | some i => if i = "" then true else dictGet n.attrs "id" == some i

/-- The class clause: every required class token must occur among the
whitespace-split class tokens of the node, as an exact string. -/
def classClause (s : _Selector) (n : _Node) : Bool :=
  match s.classes with
  | none => true
  | some l => l.all fun cls => (pyWords ((dictGet n.attrs "class").getD "")).contains cls

/-- The attribute clause: absent (or empty-named) means vacuously
true; otherwise the attribute must be present, and then the `=`
operator demands exact equality with the required value, the `*=`
operator (with a non-empty required value) demands substring
containment, and any other operator only demands presence. -/
def attrClause (s : _Selector) (n : _Node) : Bool :=
  match s.attr_name with
  | none => true
  | some a =>
    if a = "" then true
    else
      match dictGet n.attrs a with
      | none => false
      | some v =>
        if s.attr_op = some "=" then v == s.attr_value.getD ""
        else if s.attr_op = some "*=" then
          match s.attr_value with
          | some w => if w = "" then true else pyInStr w v
          | none => true
        else true

/-- The first non-`None`, non-empty capture group of a match, as the
spec phrases it. -/
def firstTruthyGroup (m : MatchRes) : Option String :=
  m.groups.findSome? fun g? =>
    match g? with
    | some g => if g = "" then none else some g
    | none => none

/-- A concrete `re.search` behaviour: every pattern matches with full
match `a  b` and one capture group `a  b` (as the pattern `(a\s+b)`
does on the text `a  b`). -/
def cSearch : String → String → Option MatchRes :=
  fun _ _ => some ⟨"a  b", [some "a  b"]⟩

/-- A concrete `re.search` behaviour that never matches. -/
def cSearchNone : String → String → Option MatchRes :=
  fun _ _ => none

/-- A whitespace-normalized string: non-empty, no leading or trailing
whitespace, every whitespace character is a plain space, and no two
adjacent whitespace characters (internal runs collapsed). -/
def isNormalized (s : String) : Prop :=
  s.data ≠ []
  ∧ (∀ c ∈ s.data, pyIsSpace c = true → c = ' ')
  ∧ (∀ c, s.data.head? = some c → pyIsSpace c = false)
  ∧ (∀ c, s.data.getLast? = some c → pyIsSpace c = false)
  ∧ List.Chain' (fun a b => ¬(pyIsSpace a = true ∧ pyIsSpace b = true)) s.data

/-- The shape the extraction pipeline guarantees for a text field:
either the placeholder or a normalized non-empty string. -/
def okField (s : String) : Prop :=
  s = UNKNOWN ∨ isNormalized s

/-- The `div` element of the parsed counterexample document
`<div>&lt;b&gt;</div>` (used to exhibit the failure of the
serialize/re-parse round trip on entity-decoded text). -/
def theDiv : _Node :=
  (nodeAt (parseDoc "<div>&lt;b&gt;</div>") [0]).getD (.mk "" [] [])

/-- Executable checker for `tagNameOk`. -/
def tagNameChk (s : String) : Bool :=
  !s.data.isEmpty
    && s.data.all (fun c => c.isLower || c.isDigit)
    && (match s.data.head? with
        | some c => c.isAlpha
        | none => true)

/-- Executable checker for `attrKeyOk`. -/
def attrKeyChk (s : String) : Bool :=
  !s.data.isEmpty
    && s.data.all (fun c => c.isLower || c.isDigit || c = '-' || c = '_')

/-- Executable checker for `attrsOk`. -/
def attrsChk (attrs : List (String × String)) : Bool :=
  attrs.all (fun kv => attrKeyChk kv.1) && decide ((attrs.map Prod.fst).Nodup)

/-- Executable checker for `textOk`. -/
def textChk (s : String) : Bool :=
  !(s == "") && s.data.all (fun c => !(c = '<' || c = '&'))

/-- Executable checker for `childrenSeparated`. -/
def sepChk : List NodeChild → Bool
  | [] => true
  | [_] => true
  | a :: b :: rest => !(isTextChild a && isTextChild b) && sepChk (b :: rest)

mutual
/-- Executable checker for `wfNode`. -/
def wfNodeChk : _Node → Bool
  | .mk name attrs cs =>
    tagNameChk name && attrsChk attrs
      && (!VOID_ELEMENTS.contains name || cs.isEmpty)
      && sepChk cs && wfChildrenChk cs
/-- Executable checker for `wfChildren`. -/
def wfChildrenChk : List NodeChild → Bool
  | [] => true
  | .elem m :: rest => wfNodeChk m && wfChildrenChk rest
  | .text s :: rest => textChk s && wfChildrenChk rest
end

theorem clean_text_unknown (v : Option String)
    (h : v = none ∨ v = some "" ∨ v = some UNKNOWN) : clean_text v = UNKNOWN := by
  rcases h with h | h | h <;> subst h
  · rfl
  · rfl
  · decide

theorem clean_text_ne_empty (v : Option String) : clean_text v ≠ "" := by
  rcases v with _ | s
  · decide
  · unfold clean_text
    split
    · decide
    · dsimp only
      split
      · decide
      · split
        · decide
        · assumption

theorem pyJoinSpace_ne_empty (l : List String) (hl : l ≠ [])
    (hw : ∀ w ∈ l, w ≠ "") : pyJoinSpace l ≠ "" := by
  match l with
  | [] => exact absurd rfl hl
  | [x] => exact hw x (by simp)
  | x :: y :: rest =>
    unfold pyJoinSpace
    intro hcontra
    have : (x ++ " " ++ pyJoinSpace (y :: rest)).data = ("" : String).data :=
      congrArg String.data hcontra
    simp [String.data_append] at this

/-- C9: when all seven spec fields are missing, empty, or already the
placeholder (including the non-dict input, modelled as `none`), the
generated title is the placeholder itself, never the empty string. -/
theorem generate_title_all_unknown (specs : Option (List (String × String)))
    (h : ∀ k ∈ ["brand", "model", "inch", "width", "holes", "pcd", "offset"],
      spec_get specs k = none ∨ spec_get specs k = some "" ∨ spec_get specs k = some UNKNOWN) :
    generate_title specs = UNKNOWN := by
  have hb := clean_text_unknown _ (h "brand" (by simp))
  have hm := clean_text_unknown _ (h "model" (by simp))
  have hi := clean_text_unknown _ (h "inch" (by simp))
  have hw := clean_text_unknown _ (h "width" (by simp))
  have hh := clean_text_unknown _ (h "holes" (by simp))
  have hp := clean_text_unknown _ (h "pcd" (by simp))
  have ho := clean_text_unknown _ (h "offset" (by simp))
  simp only [generate_title, hb, hm, hi, hw, hh, hp, ho]
  decide

theorem generate_title_all_unknown_witness : generate_title none = UNKNOWN :=
  generate_title_all_unknown none (by intro k _; exact Or.inl rfl)

theorem append_H_ne_unknown (s : String) : s ++ "H" ≠ UNKNOWN := by
  intro h
  have h2 := congrArg (fun t => t.data.getLast?) h
  simp [String.data_append, UNKNOWN, List.getLast?_concat] at h2

theorem pcd_prepend_ne_unknown (s : String) : "PCD" ++ s ≠ UNKNOWN := by
  intro h
  have h2 := congrArg (fun t => t.data.head?) h
  simp [String.data_append, UNKNOWN] at h2

theorem offset_prepend_ne_unknown (s : String) : "OFFSET" ++ s ≠ UNKNOWN := by
  intro h
  have h2 := congrArg (fun t => t.data.head?) h
  simp [String.data_append, UNKNOWN] at h2

theorem append_H_ne_empty (s : String) : s ++ "H" ≠ "" := by
  intro h
  have h2 := congrArg (fun t => t.data.getLast?) h
  simp [String.data_append, List.getLast?_concat] at h2

theorem pcd_prepend_ne_empty (s : String) : "PCD" ++ s ≠ "" := by
  intro h
  have h2 := congrArg (fun t => t.data.head?) h
  simp [String.data_append] at h2

theorem offset_prepend_ne_empty (s : String) : "OFFSET" ++ s ≠ "" := by
  intro h
  have h2 := congrArg (fun t => t.data.head?) h
  simp [String.data_append] at h2

theorem filter_title_single (x : String) (hx : x ≠ "") :
    List.filter (fun part => !(part == "") && !(part == UNKNOWN)) [x]
      = if x = UNKNOWN then [] else [x] := by
  have hx2 : (x == "") = false := beq_eq_false_iff_ne.mpr hx
  by_cases h : x = UNKNOWN
  · subst h; simp [List.filter]
  · have h2 : (x == UNKNOWN) = false := beq_eq_false_iff_ne.mpr h
    simp [List.filter, hx2, h2, h]

theorem filter_title_guarded (x y : String) (hy : y ≠ "") (hyu : y ≠ UNKNOWN) :
    List.filter (fun part => !(part == "") && !(part == UNKNOWN))
        (if !(x == UNKNOWN) then [y] else [])
      = if x = UNKNOWN then [] else [y] := by
  have hy2 : (y == "") = false := beq_eq_false_iff_ne.mpr hy
  have hyu2 : (y == UNKNOWN) = false := beq_eq_false_iff_ne.mpr hyu
  by_cases h : x = UNKNOWN
  · subst h; simp [List.filter]
  · have h2 : (x == UNKNOWN) = false := beq_eq_false_iff_ne.mpr h
    simp [List.filter, hy2, hyu2, h2, h]

theorem filter_title_pair (b m : String) (hb : b ≠ "") (hm : m ≠ "") :
    List.filter (fun part => !(part == "") && !(part == UNKNOWN)) [b, m]
      = (if b = UNKNOWN then [] else [b]) ++ (if m = UNKNOWN then [] else [m]) := by
  have h1 : [b, m] = [b] ++ [m] := rfl
  rw [h1, List.filter_append, filter_title_single b hb, filter_title_single m hm]

theorem filter_title_self (x : String) (hx : x ≠ "") :
    List.filter (fun part => !(part == "") && !(part == UNKNOWN))
        (if !(x == UNKNOWN) then [x] else [])
      = if x = UNKNOWN then [] else [x] := by
  by_cases h : x = UNKNOWN
  · simp [h]
  · have hx2 : (x == "") = false := beq_eq_false_iff_ne.mpr hx
    have h2 : (x == UNKNOWN) = false := beq_eq_false_iff_ne.mpr h
    simp [List.filter, hx2, h2, h]

theorem mem_guard {w x : String} {c : Prop} [Decidable c]
    (h : w ∈ (if c then ([] : List String) else [x])) : w = x := by
  split at h
  · simp at h
  · simpa using h

theorem join_guard_eq (L : List String) (helem : ∀ w ∈ L, w ≠ "") :
    (if (pyJoinSpace L == "") = true then UNKNOWN else pyJoinSpace L)
      = (if L = [] then UNKNOWN else pyJoinSpace L) := by
  by_cases hL : L = []
  · subst hL; simp [pyJoinSpace]
  · have hne := pyJoinSpace_ne_empty L hL helem
    have h2 : (pyJoinSpace L == "") = false := beq_eq_false_iff_ne.mpr hne
    simp [h2, hL]

/-- C2 (amended): the generated title is the space-joined sequence of
exactly the cleaned components whose underlying field is known, in the
order brand, model, diameter, width (with no suffix), holes + `H`,
`PCD` + pcd, `OFFSET` + offset — and the placeholder when no component
remains. -/
theorem generate_title_components_spec (specs : Option (List (String × String))) :
    generate_title specs =
      (if titleComponentsSpec specs = [] then UNKNOWN
       else pyJoinSpace (titleComponentsSpec specs)) := by
  have hbne := clean_text_ne_empty (spec_get specs "brand")
  have hmne := clean_text_ne_empty (spec_get specs "model")
  have hine := clean_text_ne_empty (spec_get specs "inch")
  have hwne := clean_text_ne_empty (spec_get specs "width")
  simp only [generate_title, titleComponentsSpec]
  rw [List.filter_append, List.filter_append, List.filter_append, List.filter_append,
      List.filter_append]
  rw [filter_title_pair _ _ hbne hmne]
  rw [filter_title_self _ hine, filter_title_self _ hwne]
  rw [filter_title_guarded _ _ (append_H_ne_empty _) (append_H_ne_unknown _)]
  rw [filter_title_guarded _ _ (pcd_prepend_ne_empty _) (pcd_prepend_ne_unknown _)]
  rw [filter_title_guarded _ _ (offset_prepend_ne_empty _) (offset_prepend_ne_unknown _)]
  exact join_guard_eq _ (by
    intro w hw
    simp only [List.mem_append] at hw
    rcases hw with ((((((h | h) | h) | h) | h) | h) | h)
    · rw [mem_guard h]; exact hbne
    · rw [mem_guard h]; exact hmne
    · rw [mem_guard h]; exact hine
    · rw [mem_guard h]; exact hwne
    · rw [mem_guard h]; exact append_H_ne_empty _
    · rw [mem_guard h]; exact pcd_prepend_ne_empty _
    · rw [mem_guard h]; exact offset_prepend_ne_empty _)

/-- C2 (counterexample): with the single known field width = 7 the
title is `7`, not `7J` — the width component carries no `J` suffix. -/
theorem generate_title_width_unsuffixed :
    generate_title (some [("width", "7")]) = "7"
      ∧ generate_title (some [("width", "7")]) ≠ "7J" := by
  constructor
  · decide
  · decide

/-- C5: lookups are total and absence is a value: a name predicate
that raises is a non-match for that node, an attrs predicate that
raises makes the whole attrs filter a non-match, `find` is the first
element of `find_all`, and an empty `find_all` makes `find` return the
explicit absence value. -/
theorem find_never_raises_spec :
    (∀ (n : _Node) (f : _Node → Except Unit Bool),
       f n = .error () → _match_name n (.byFun f) = false)
    ∧ (∀ (n : _Node) (l : List (String × AttrExpect)) (k : String)
         (f : Option String → Except Unit Bool),
         (k, AttrExpect.byFun f) ∈ l → f (dictGet n.attrs k) = .error () →
         _match_attrs n (some l) = false)
    ∧ (∀ (root : _Node) (name : NameArg) (attrs : Option (List (String × AttrExpect))),
         find root name attrs = (find_all root name attrs).head?
         ∧ (find_all root name attrs = [] → find root name attrs = none)) := by
  refine ⟨?_, ?_, ?_⟩
  · intro n f hf
    simp [_match_name, hf, runPred]
  · intro n l k f hmem hf
    simp only [_match_attrs]
    rw [List.all_eq_false]
    exact ⟨(k, AttrExpect.byFun f), hmem, by simp [hf, runPred]⟩
  · intro root name attrs
    exact ⟨rfl, fun h => by simp [find, h]⟩

theorem find_never_raises_spec_witness :
    _match_name (.mk "a" [] []) (.byFun fun _ => .error ()) = false :=
  find_never_raises_spec.1 (.mk "a" [] []) (fun _ => .error ()) rfl

/-- C8: `Tag.attrs` returns a copy — the fresh cell holds the same
contents as the node's cell but is a different reference, and writing
or deleting through the returned reference leaves the node's attribute
mapping (and hence subsequent `attrs` reads) unchanged. -/
theorem tag_attrs_copy_spec (h : DictHeap) (nodeRef : Nat)
    (hv : nodeRef < h.dicts.length) (k v : String) :
    heapGet (Tag_attrs h nodeRef).1 (Tag_attrs h nodeRef).2 = heapGet h nodeRef
    ∧ (Tag_attrs h nodeRef).2 ≠ nodeRef
    ∧ heapGet (heapDictSet (Tag_attrs h nodeRef).1 (Tag_attrs h nodeRef).2 k v) nodeRef
        = heapGet h nodeRef
    ∧ heapGet (heapDictDel (Tag_attrs h nodeRef).1 (Tag_attrs h nodeRef).2 k) nodeRef
        = heapGet h nodeRef := by
  have hget : ∀ x : List (String × String),
      (h.dicts ++ [x]).get? nodeRef = h.dicts.get? nodeRef :=
    fun x => List.get?_append hv
  refine ⟨?_, ?_, ?_, ?_⟩
  · simp [Tag_attrs, heapGet, List.get?_concat_length]
  · exact fun hcontra => absurd (hcontra ▸ hv) (lt_irrefl _)
  · simp only [Tag_attrs, heapDictSet, heapGet]
    rw [List.get?_set_ne _ _ (Nat.ne_of_gt hv)]
    rw [hget]
  · simp only [Tag_attrs, heapDictDel, heapGet]
    rw [List.get?_set_ne _ _ (Nat.ne_of_gt hv)]
    rw [hget]

theorem tag_attrs_copy_spec_witness :
    0 < 1
    ∧ (heapGet (Tag_attrs ⟨[[("a", "1")]]⟩ 0).1 (Tag_attrs ⟨[[("a", "1")]]⟩ 0).2
         = heapGet ⟨[[("a", "1")]]⟩ 0
       ∧ (Tag_attrs ⟨[[("a", "1")]]⟩ 0).2 ≠ 0
       ∧ heapGet (heapDictSet (Tag_attrs ⟨[[("a", "1")]]⟩ 0).1 (Tag_attrs ⟨[[("a", "1")]]⟩ 0).2 "a" "2") 0
           = heapGet ⟨[[("a", "1")]]⟩ 0
       ∧ heapGet (heapDictDel (Tag_attrs ⟨[[("a", "1")]]⟩ 0).1 (Tag_attrs ⟨[[("a", "1")]]⟩ 0).2 "a") 0
           = heapGet ⟨[[("a", "1")]]⟩ 0) :=
  ⟨by decide, tag_attrs_copy_spec ⟨[[("a", "1")]]⟩ 0 (by decide) "a" "2"⟩

theorem ifchain5 (A B C D E M : Bool) :
    (if A then false
     else if B then false
     else if C then false
     else if D then false
     else if E then M
     else true)
      = (!A && !B && !C && !D && (!E || M)) := by
  cases A <;> cases B <;> cases C <;> cases D <;> cases E <;> cases M <;> rfl

/-- C6: a node matches a parsed selector exactly when it is not the
synthetic root and satisfies every present clause (absent or empty
clauses vacuously true): the tag compared case-insensitively, the id,
the class tokens and attribute equality as case-sensitive exact
strings, and the `*=` operator by substring containment; in
particular the selector with no constraints matches every non-root
node. -/
theorem selector_matches_spec (s : _Selector) (n : _Node) :
    (s.matches n
      = (!(n.name == "__root__") && tagClause s n && idClause s n
          && classClause s n && attrClause s n))
    ∧ ((_Selector.mk none none none none none none).matches n = true ↔
        n.name ≠ "__root__") := by
  constructor
  · simp only [_Selector.matches]
    rw [ifchain5]
    congr 1
    · congr 1
      · congr 1
        · congr 1
          · rcases htg : s.tag with _ | t
            · simp [tagClause, truthyOS, htg]
            · by_cases ht : t = "" <;> simp [tagClause, truthyOS, htg, ht]
        · rcases hid : s.id with _ | i
          · simp [idClause, truthyOS, hid]
          · by_cases hi : i = "" <;> simp [idClause, truthyOS, hid, hi]
      · rcases hcl : s.classes with _ | l
        · simp [classClause, truthyOL, hcl]
        · rcases l with _ | ⟨c0, ls⟩
          · simp [classClause, truthyOL, hcl]
          · simp [classClause, truthyOL, hcl]
    · rcases han : s.attr_name with _ | a
      · simp [attrClause, truthyOS, han]
      · by_cases ha : a = ""
        · simp [attrClause, truthyOS, han, ha]
        · rcases hdg : dictGet n.attrs a with _ | v
          · simp [attrClause, truthyOS, han, ha, hdg]
          · by_cases hop1 : s.attr_op = some "="
            · simp [attrClause, truthyOS, han, ha, hdg, hop1]
            · by_cases hop2 : s.attr_op = some "*="
              · rcases hav : s.attr_value with _ | w
                · simp [attrClause, truthyOS, han, ha, hdg, hop1, hop2, hav]
                · by_cases hw : w = "" <;>
                    simp [attrClause, truthyOS, han, ha, hdg, hop1, hop2, hav, hw]
              · simp [attrClause, truthyOS, han, ha, hdg, hop1, hop2]
  · simp [_Selector.matches, truthyOS, truthyOL]

theorem chain'_of_nonspace (cs : List Char) (h : ∀ c ∈ cs, pyIsSpace c = false) :
    List.Chain' (fun a b => ¬(pyIsSpace a = true ∧ pyIsSpace b = true)) cs := by
  induction cs with
  | nil => simp
  | cons c rest ih =>
    rcases rest with _ | ⟨d, t⟩
    · simp
    · rw [List.chain'_cons]
      constructor
      · intro hcontra
        rw [h c (by simp)] at hcontra
        exact absurd hcontra.1 (by simp)
      · exact ih (fun x hx => h x (List.mem_cons_of_mem c hx))

theorem pyWordsAux_sound (cs : List Char) :
    ∀ acc, (∀ c ∈ acc, pyIsSpace c = false) →
      ∀ w ∈ pyWordsAux acc cs, w ≠ [] ∧ ∀ c ∈ w, pyIsSpace c = false := by
  induction cs with
  | nil =>
    intro acc hacc w hw
    simp only [pyWordsAux] at hw
    split at hw
    · simp at hw
    · simp only [List.mem_singleton] at hw
      subst hw
      rename_i hne
      refine ⟨?_, ?_⟩
      · intro hcontra
        rw [List.reverse_eq_nil_iff] at hcontra
        subst hcontra
        simp at hne
      · intro c hc
        exact hacc c (List.mem_reverse.mp hc)
  | cons c rest ih =>
    intro acc hacc w hw
    simp only [pyWordsAux] at hw
    by_cases hsp : pyIsSpace c = true
    · rw [if_pos hsp] at hw
      split at hw
      · exact ih [] (by simp) w hw
      · rename_i hne
        rcases List.mem_cons.mp hw with hw | hw
        · subst hw
          refine ⟨?_, ?_⟩
          · intro hcontra
            rw [List.reverse_eq_nil_iff] at hcontra
            subst hcontra
            simp at hne
          · intro x hx
            exact hacc x (List.mem_reverse.mp hx)
        · exact ih [] (by simp) w hw
    · rw [if_neg hsp] at hw
      refine ih (c :: acc) ?_ w hw
      intro x hx
      rcases List.mem_cons.mp hx with hx | hx
      · subst hx; exact Bool.not_eq_true _ ▸ (by simpa using hsp)
      · exact hacc x hx

theorem string_data_ne_nil {x : String} (hx : x ≠ "") : x.data ≠ [] := by
  intro h
  apply hx
  obtain ⟨d⟩ := x
  simp only [String.data] at h
  subst h
  rfl

theorem pyJoinSpace_normalized (l : List String) :
    l ≠ [] → (∀ w ∈ l, w ≠ "" ∧ ∀ c ∈ w.data, pyIsSpace c = false) →
    isNormalized (pyJoinSpace l) := by
  induction l with
  | nil => intro h; exact absurd rfl h
  | cons x rest ih =>
    intro _ hw
    obtain ⟨hxe, hxc⟩ := hw x (by simp)
    have hxd := string_data_ne_nil hxe
    rcases rest with _ | ⟨y, t⟩
    · show isNormalized x
      refine ⟨hxd, ?_, ?_, ?_, ?_⟩
      · intro c hc hws
        rw [hxc c hc] at hws
        exact absurd hws (by simp)
      · intro c hc
        exact hxc c (List.mem_of_mem_head? hc)
      · intro c hc
        exact hxc c (List.mem_of_mem_getLast? hc)
      · exact chain'_of_nonspace _ hxc
    · have hJ := ih (by simp) (fun w hwm => hw w (List.mem_cons_of_mem x hwm))
      obtain ⟨hJne, hJws, hJhead, hJlast, hJchain⟩ := hJ
      have hdata : (pyJoinSpace (x :: y :: t)).data
          = x.data ++ (' ' :: (pyJoinSpace (y :: t)).data) := by
        show ((x ++ " ") ++ pyJoinSpace (y :: t)).data = _
        simp [String.data_append, List.append_assoc]
      rw [isNormalized, hdata]
      refine ⟨by simp, ?_, ?_, ?_, ?_⟩
      · intro c hc hws
        rcases List.mem_append.mp hc with hc | hc
        · rw [hxc c hc] at hws
          exact absurd hws (by simp)
        · rcases List.mem_cons.mp hc with hc | hc
          · exact hc
          · exact hJws c hc hws
      · intro c hc
        rw [List.head?_append_of_ne_nil _ hxd] at hc
        exact hxc c (List.mem_of_mem_head? hc)
      · intro c hc
        rw [List.getLast?_append_of_ne_nil _ (by simp)] at hc
        have : (' ' :: (pyJoinSpace (y :: t)).data).getLast? = (pyJoinSpace (y :: t)).data.getLast? := by
          have h2 : (' ' :: (pyJoinSpace (y :: t)).data) = [' '] ++ (pyJoinSpace (y :: t)).data := rfl
          rw [h2, List.getLast?_append_of_ne_nil _ hJne]
        rw [this] at hc
        exact hJlast c hc
      · rw [List.chain'_append]
        refine ⟨chain'_of_nonspace _ hxc, ?_, ?_⟩
        · have h2 : (' ' :: (pyJoinSpace (y :: t)).data) = [' '] ++ (pyJoinSpace (y :: t)).data := rfl
          rw [h2, List.chain'_append]
          refine ⟨by simp, hJchain, ?_⟩
          · intro a ha b hb
            intro hcontra
            rw [hJhead b hb] at hcontra
            exact absurd hcontra.2 (by simp)
        · intro a ha b hb
          intro hcontra
          rw [hxc a (List.mem_of_mem_getLast? ha)] at hcontra
          exact absurd hcontra.1 (by simp)

theorem clean_text_ok (v : Option String) : okField (clean_text v) := by
  rcases v with _ | s
  · exact Or.inl rfl
  · by_cases h1 : s = ""
    · rw [show clean_text (some s) = UNKNOWN from by simp [clean_text, h1]]
      exact Or.inl rfl
    · by_cases h2 : pyJoinSpace (pyWords s) = ""
      · rw [show clean_text (some s) = UNKNOWN from by simp [clean_text, h1, h2]]
        exact Or.inl rfl
      · rw [show clean_text (some s) = pyJoinSpace (pyWords s) from by simp [clean_text, h1, h2]]
        right
        apply pyJoinSpace_normalized
        · intro hcontra
          rw [hcontra] at h2
          exact h2 rfl
        · intro w hwm
          obtain ⟨wl, hwl, rfl⟩ := List.mem_map.mp hwm
          have hfacts := pyWordsAux_sound s.data [] (by simp) wl hwl
          constructor
          · intro hcontra
            exact hfacts.1 (congrArg String.data hcontra)
          · exact hfacts.2

theorem extract_title_ok (root : _Node) : okField (_extract_title root) := by
  unfold _extract_title
  split
  · exact clean_text_ok _
  · split
    · exact clean_text_ok _
    · exact clean_text_ok _

theorem extractPriceGo_ok (root : _Node)
    (cands : List (NameArg × Option (List (String × AttrExpect)))) :
    okField (extractPriceGo root cands) := by
  induction cands with
  | nil => exact Or.inl rfl
  | cons c rest ih =>
    obtain ⟨nm, attrsQ⟩ := c
    unfold extractPriceGo
    split
    · exact clean_text_ok _
    · exact ih

theorem extractShippingSelect_ok (root : _Node) (ps : List (List Nat)) :
    okField (extractShippingSelect root ps) := by
  induction ps with
  | nil => exact Or.inl rfl
  | cons p rest ih =>
    unfold extractShippingSelect
    dsimp only
    split
    · exact clean_text_ok _
    · exact ih

theorem extractShippingLabels_ok (root : _Node) (labels : List String) :
    okField (extractShippingLabels root labels) := by
  induction labels with
  | nil =>
    unfold extractShippingLabels
    exact extractShippingSelect_ok root _
  | cons label rest ih =>
    unfold extractShippingLabels
    split
    · split
      · exact clean_text_ok _
      · exact clean_text_ok _
      · exact ih
    · exact ih

/-- C10: whichever document the fetch produces (including the failure
case), the title, price and shipping fields of `extract_listing` are
each either the placeholder or a non-empty whitespace-normalized
string. -/
theorem extract_listing_fields_clean (fetched : Option _Node) :
    okField (extract_listing fetched).title
    ∧ okField (extract_listing fetched).price
    ∧ okField (extract_listing fetched).shipping := by
  rcases fetched with _ | root
  · exact ⟨Or.inl rfl, Or.inl rfl, Or.inl rfl⟩
  · exact ⟨extract_title_ok root, extractPriceGo_ok root _, extractShippingLabels_ok root _⟩

/-- C1 (counterexample): after `<div><p>` the cursor sits on `p`; the
end tag `</span>` matches no open ancestor, yet processing it does not
leave the cursor unchanged — it resets the cursor to the document
root. -/
theorem handle_endtag_moves_cursor_to_root :
    (∀ nm ∈ openNames (buildStack (tokenize "<div><p>")), pyLower nm ≠ "span")
    ∧ currentName (buildStack (tokenize "<div><p>")) = "p"
    ∧ currentName (handle_endtag "span" (buildStack (tokenize "<div><p>"))) = "__root__"
    ∧ (handle_endtag "span" (buildStack (tokenize "<div><p>"))).length
        ≠ (buildStack (tokenize "<div><p>")).length := by
  refine ⟨by decide, by decide, by decide, by decide⟩

/-- C1 (amended): processing an end tag never raises (it is a total
function) and moves the cursor as follows — if some open element of
the cursor's chain (the stack without the root) matches the lowercased
tag, the cursor ends on that element's parent, i.e. the stack loses
the frames up to and including the first match; if no open element
matches, the cursor ends on the document root. -/
theorem handle_endtag_cursor_spec (tag : String) (st : List Frame) (h : 0 < st.length) :
    (handle_endtag tag st).map Frame.name =
      (match (openNames st).findIdx? (fun nm => pyLower nm == pyLower tag) with
       | some i => (st.map Frame.name).drop (i + 1)
       | none => (st.map Frame.name).drop (st.length - 1)) := by
  rcases st with _ | ⟨f, rest⟩
  · simp at h
  · clear h
    induction rest generalizing f with
    | nil =>
      simp [handle_endtag, endtagWalk, openNames]
    | cons g r ih =>
      have hopen : openNames (f :: g :: r)
          = f.name :: openNames (g :: r) := by
        simp [openNames]
      by_cases hm : pyLower f.name = pyLower tag
      · rw [hopen]
        rw [List.findIdx?_cons]
        rw [if_pos (by simpa using hm)]
        simp [handle_endtag, endtagWalk, hm, closeInto]
      · have hstep : handle_endtag tag (f :: g :: r)
            = handle_endtag tag (closeInto f g :: r) := by
          simp [handle_endtag, endtagWalk, hm]
        have hnames : (closeInto f g :: r).map Frame.name = (g :: r).map Frame.name := by
          simp [closeInto]
        have hopen2 : openNames (closeInto f g :: r) = openNames (g :: r) := by
          simp [openNames, closeInto]
        rw [hstep, ih (closeInto f g), hopen2, hopen]
        rw [List.findIdx?_cons]
        rw [if_neg (by simpa using hm)]
        rw [List.findIdx?_succ]
        rcases hfix : (openNames (g :: r)).findIdx? (fun nm => pyLower nm == pyLower tag) with _ | i
        · simp [hnames, List.length_cons]
        · simp [hnames]

mutual
theorem nodeDescPaths_nodup (n : _Node) :
    (nodeDescPaths n).Nodup ∧ ∀ p ∈ nodeDescPaths n, p ≠ [] := by
  rcases n with ⟨name, attrs, cs⟩
  simp only [nodeDescPaths]
  have h := childPathsAux_nodup 0 cs
  exact ⟨h.1, fun p hp => by
    obtain ⟨j, q, hpq, _⟩ := h.2 p hp
    simp [hpq]⟩

theorem childPathsAux_nodup (i : Nat) (cs : List NodeChild) :
    (childPathsAux i cs).Nodup
      ∧ ∀ p ∈ childPathsAux i cs, ∃ j q, p = j :: q ∧ i ≤ j := by
  match cs with
  | [] => simp [childPathsAux]
  | .elem m :: rest =>
    obtain ⟨hmn, hmne⟩ := nodeDescPaths_nodup m
    obtain ⟨hrn, hrsh⟩ := childPathsAux_nodup (i + 1) rest
    simp only [childPathsAux]
    constructor
    · rw [List.nodup_append]
      refine ⟨?_, hrn, ?_⟩
      · rw [List.nodup_append]
        refine ⟨?_, hmn.map (fun p q hpq => by simpa using hpq), ?_⟩
        · split <;> simp
        · intro p hp hq
          split at hp
          · simp at hp
          · simp only [List.mem_singleton] at hp
            subst hp
            obtain ⟨p', hp', hq'⟩ := List.mem_map.mp hq
            have hnil : p' = [] := by
              have h2 := congrArg List.tail hq'
              simpa using h2
            exact hmne p' hp' hnil
      · intro p hp hq
        have hph : ∃ t, p = i :: t := by
          rcases List.mem_append.mp hp with hp | hp
          · split at hp
            · simp at hp
            · simp only [List.mem_singleton] at hp
              exact ⟨[], hp⟩
          · obtain ⟨p', _, hq'⟩ := List.mem_map.mp hp
            exact ⟨p', hq'.symm⟩
        obtain ⟨j, q', hq1, hq2⟩ := hrsh p hq
        obtain ⟨t, hpt⟩ := hph
        rw [hpt] at hq1
        injection hq1 with h1 _
        omega
    · intro p hp
      rcases List.mem_append.mp hp with hp | hp
      · rcases List.mem_append.mp hp with hp | hp
        · split at hp
          · simp at hp
          · simp only [List.mem_singleton] at hp
            exact ⟨i, [], hp, Nat.le_refl i⟩
        · obtain ⟨p', _, hq'⟩ := List.mem_map.mp hp
          exact ⟨i, p', hq'.symm, Nat.le_refl i⟩
      · obtain ⟨j, q, hq1, hq2⟩ := hrsh p hp
        exact ⟨j, q, hq1, by omega⟩
  | .text s :: rest =>
    obtain ⟨hrn, hrsh⟩ := childPathsAux_nodup (i + 1) rest
    simp only [childPathsAux]
    exact ⟨hrn, fun p hp => by
      obtain ⟨j, q, hq1, hq2⟩ := hrsh p hp
      exact ⟨j, q, hq1, by omega⟩⟩
end

theorem selectInner_spec (root : _Node) (parsed : _Selector) (iter : List (List Nat)) :
    iter.Nodup → ∀ seen : List (List Nat),
      selectInner root parsed iter seen seen
        = (seen ++ iter.filter (fun p => !(seen.contains p) && selMatchAt root parsed p),
           seen ++ iter.filter (fun p => !(seen.contains p) && selMatchAt root parsed p)) := by
  induction iter with
  | nil => intro _ seen; simp [selectInner]
  | cons p rest ih =>
    intro hnd seen
    have hp : p ∉ rest := (List.nodup_cons.mp hnd).1
    have hrest : rest.Nodup := (List.nodup_cons.mp hnd).2
    have hcongr :
        rest.filter (fun q => !((seen ++ [p]).contains q) && selMatchAt root parsed q)
          = rest.filter (fun q => !(seen.contains q) && selMatchAt root parsed q) := by
      apply List.filter_congr
      intro q hq
      have hqp : ¬(q = p) := fun hcontra => hp (hcontra ▸ hq)
      simp [List.contains, List.mem_append, hqp]
    unfold selectInner
    by_cases hseen : seen.contains p = true
    · rw [if_pos hseen, ih hrest seen]
      have hb : (!(seen.contains p) && selMatchAt root parsed p) = false := by
        rw [hseen]; rfl
      rw [List.filter_cons]
      simp only [hb, Bool.false_eq_true, if_false]
    · rw [if_neg hseen]
      rcases hna : nodeAt root p with _ | n
      · have hsm : (!(seen.contains p) && selMatchAt root parsed p) = false := by
          have h2 : selMatchAt root parsed p = false := by simp [selMatchAt, hna]
          rw [h2]; simp
        rw [ih hrest seen, List.filter_cons]
        simp only [hsm, Bool.false_eq_true, if_false]
      · dsimp only
        by_cases hmt : parsed.matches n = true
        · have hsm : selMatchAt root parsed p = true := by simp [selMatchAt, hna, hmt]
          rw [if_pos hmt, ih hrest (seen ++ [p]), hcongr]
          have hb : (!(seen.contains p) && selMatchAt root parsed p) = true := by
            have hs2 : seen.contains p = false := Bool.eq_false_iff.mpr hseen
            rw [hsm, hs2]; rfl
          rw [List.filter_cons]
          simp only [hb, if_true]
          simp
        · have hsm : (!(seen.contains p) && selMatchAt root parsed p) = false := by
            have h2 : selMatchAt root parsed p = false := by
              simp only [selMatchAt, hna]
              exact Bool.not_eq_true _ ▸ hmt
            rw [h2]; simp
          rw [if_neg hmt, ih hrest seen, List.filter_cons]
          simp only [hsm, Bool.false_eq_true, if_false]

theorem select_fold_spec (root : _Node) (iter : List (List Nat)) (hnd : iter.Nodup) :
    ∀ (gs : List String) (s : List (List Nat)),
      (gs.foldl (fun acc g => selectInner root (_parse_selector g) iter acc.1 acc.2) (s, s))
        = (gs.foldl (fun accL g =>
             accL ++ (iter.filter (selMatchAt root (_parse_selector g))).filter
               (fun p => !(accL.contains p))) s,
           gs.foldl (fun accL g =>
             accL ++ (iter.filter (selMatchAt root (_parse_selector g))).filter
               (fun p => !(accL.contains p))) s) := by
  intro gs
  induction gs with
  | nil => intro s; rfl
  | cons g gs' ih =>
    intro s
    simp only [List.foldl_cons]
    have hff : (iter.filter (selMatchAt root (_parse_selector g))).filter
          (fun p => !(s.contains p))
        = iter.filter (fun p => !(s.contains p) && selMatchAt root (_parse_selector g) p) := by
      rw [List.filter_filter]
    show (gs'.foldl (fun acc g => selectInner root (_parse_selector g) iter acc.1 acc.2)
        (selectInner root (_parse_selector g) iter s s)) = _
    rw [selectInner_spec root _ iter hnd s, ← hff]
    exact ih _

theorem select_fold_nodup (root : _Node) :
    ∀ (gs : List String) (s : List (List Nat)), s.Nodup →
      (gs.foldl (fun accL g =>
        accL ++ (docMatches root g).filter (fun p => !(accL.contains p))) s).Nodup := by
  intro gs
  induction gs with
  | nil => intro s hs; exact hs
  | cons g gs' ih =>
    intro s hs
    rw [List.foldl_cons]
    apply ih
    rw [List.nodup_append]
    refine ⟨hs, List.Nodup.filter _ (((nodeDescPaths_nodup root).1).filter _), ?_⟩
    intro p hp hq
    have h2 := (List.mem_filter.mp hq).2
    rw [Bool.not_eq_true'] at h2
    simp [List.contains, hp] at h2

/-- C3: `select` returns the identity-de-duplicated union of the
compound selector matches, ordered as all document-order matches of
the first compound selector followed by the matches found exclusively
by each later compound selector in selector-list order, and no node
appears twice. -/
theorem select_union_order_spec (root : _Node) (selector : String) :
    select root selector = selectSpecOrder root selector
    ∧ (select root selector).Nodup := by
  have hnd := (nodeDescPaths_nodup root).1
  have hsel : select root selector
      = (selectGroups selector).foldl
          (fun accL g => accL ++ (docMatches root g).filter (fun p => !(accL.contains p))) [] := by
    show ((selectGroups selector).foldl
        (fun acc selItem => selectInner root (_parse_selector selItem) (nodeDescPaths root) acc.1 acc.2)
        ([], [])).2 = _
    rw [select_fold_spec root (nodeDescPaths root) hnd (selectGroups selector) []]
    rfl
  constructor
  · rw [hsel]; rfl
  · rw [hsel]
    exact select_fold_nodup root (selectGroups selector) [] List.nodup_nil

theorem firstTruthyGroup_eq (m : MatchRes) :
    firstTruthyGroup m = ((m.groups.filterMap id).filter (fun g => !(g == ""))).head? := by
  unfold firstTruthyGroup
  induction m.groups with
  | nil => rfl
  | cons g? rest ih =>
    rcases g? with _ | g
    · simpa using ih
    · by_cases hg : g = ""
      · subst hg
        simpa using ih
      · have hg2 : (g == "") = false := beq_eq_false_iff_ne.mpr hg
      
        simp [List.findSome?_cons, List.filterMap_cons, List.filter_cons, hg, hg2]

/-- C7 (counterexample): for the `re.search` behaviour produced by the
pattern `(a\s+b)` on the text `a  b` — full match and single capture
group both `a  b` — the function returns the cleaned string `a b`, not
the capture group itself. -/
theorem run_regexes_cleans_group :
    run_regexes cSearch "a  b" ["(a\\s+b)"] = "a b"
    ∧ run_regexes cSearch "a  b" ["(a\\s+b)"] ≠ "a  b" := by
  constructor
  · decide
  · decide

/-- C7 (amended): for the first pattern the search engine matches, the
function returns `clean_text` of the first non-`None`, non-empty
capture group, or `clean_text` of the full match when there is no such
group; when no pattern matches it returns the placeholder. -/
theorem run_regexes_first_match_spec (search : String → String → Option MatchRes)
    (text : String) :
    (∀ (ps₁ ps₂ : List String) (p : String) (m : MatchRes),
        (∀ q ∈ ps₁, search q text = none) → search p text = some m →
        run_regexes search text (ps₁ ++ p :: ps₂)
          = (match firstTruthyGroup m with
             | some g => clean_text (some g)
             | none => clean_text (some m.group0)))
    ∧ (∀ qs : List String, (∀ q ∈ qs, search q text = none) →
        run_regexes search text qs = UNKNOWN) := by
  constructor
  · intro ps₁
    induction ps₁ with
    | nil =>
      intro ps₂ p m _ hp
      show run_regexes search text (p :: ps₂) = _
      unfold run_regexes
      rw [hp, firstTruthyGroup_eq]
      rcases hf : (m.groups.filterMap id).filter (fun g => !(g == "")) with _ | ⟨g, rest⟩ <;>
        simp [hf]
    | cons q ps₁' ih =>
      intro ps₂ p m hnone hp
      show run_regexes search text (q :: (ps₁' ++ p :: ps₂)) = _
      unfold run_regexes
      rw [hnone q (by simp)]
      exact ih ps₂ p m (fun r hr => hnone r (by simp [hr])) hp
  · intro qs
    induction qs with
    | nil => intro _; rfl
    | cons q rest ih =>
      intro hnone
      unfold run_regexes
      rw [hnone q (by simp)]
      exact ih (fun r hr => hnone r (by simp [hr]))

theorem run_regexes_first_match_spec_witness :
    run_regexes cSearchNone "t" ["p1", "p2"] = UNKNOWN :=
  (run_regexes_first_match_spec cSearchNone "t").2 ["p1", "p2"] (by intro q _; rfl)

theorem handle_endtag_cursor_spec_witness :
    (handle_endtag "div" (buildStack (tokenize "<div><p>"))).map Frame.name = ["__root__"] := by
  have h := handle_endtag_cursor_spec "div" (buildStack (tokenize "<div><p>")) (by decide)
  rw [h]
  decide

theorem generate_title_components_spec_witness :
    generate_title (some [("brand", "RAYS")]) = "RAYS" := by
  have h := generate_title_components_spec (some [("brand", "RAYS")])
  rw [h]
  decide

theorem select_union_order_spec_witness :
    select (parseDoc "<a></a><b></b>") "b, a"
      = selectSpecOrder (parseDoc "<a></a><b></b>") "b, a" :=
  (select_union_order_spec (parseDoc "<a></a><b></b>") "b, a").1

theorem selector_matches_spec_witness :
    (_Selector.mk none none none none none none).matches (.mk "a" [] []) = true :=
  (selector_matches_spec ⟨none, none, none, none, none, none⟩ (.mk "a" [] [])).2.mpr (by decide)

theorem extract_listing_fields_clean_witness :
    okField (extract_listing none).title :=
  (extract_listing_fields_clean none).1

/-- C4 (counterexample): in the tree parsed from
`<div>&lt;b&gt;</div>` the `div` has no element children, only the
text run `<b>`; serializing its children gives the string `<b>`, and
re-parsing that string produces a tree with an element named `b` —
the element structure is not preserved. -/
theorem decode_contents_roundtrip_cex :
    elemNames theDiv.children = []
    ∧ textContentChildren theDiv.children = "<b>"
    ∧ theDiv.render_contents = "<b>"
    ∧ elemNames (parseDoc theDiv.render_contents).children = ["b"] := by
  refine ⟨by decide, by decide, by decide, by decide⟩

theorem toLower_stable (c : Char)
    (h : (c.isLower || c.isDigit || c = '-' || c = '_' || c = ':') = true) :
    c.toLower = c := by
  unfold Char.toLower
  rw [if_neg]
  rintro ⟨h1, h2⟩
  simp only [Bool.or_eq_true] at h
  rcases h with ((((h | h) | h) | h) | h)
  · simp only [Char.isLower] at h
    obtain ⟨hlo, hhi⟩ := by simpa [Char.le_def] using h
    simp [Char.toNat, UInt32.toNat] at h1 h2
    rw [UInt32.le_def] at hlo
    simp [BitVec.le_def] at hlo
    omega
  · simp only [Char.isDigit] at h
    obtain ⟨hlo, hhi⟩ := by simpa [Char.le_def] using h
    simp [Char.toNat, UInt32.toNat] at h1 h2
    rw [UInt32.le_def] at hhi
    simp [BitVec.le_def] at hhi
    omega
  · rw [decide_eq_true_iff] at h; subst h; exact absurd h1 (by decide)
  · rw [decide_eq_true_iff] at h; subst h; exact absurd h2 (by decide)
  · rw [decide_eq_true_iff] at h; subst h; exact absurd h1 (by decide)

theorem pyLower_stable (s : String)
    (h : ∀ c ∈ s.data, (c.isLower || c.isDigit || c = '-' || c = '_' || c = ':') = true) :
    pyLower s = s := by
  unfold pyLower
  have h2 : s.data.map Char.toLower = s.data.map id :=
    List.map_congr_left (fun c hc => toLower_stable c (h c hc))
  rw [h2, List.map_id]

theorem nameChar_expand (c : Char) (h : (c.isLower || c.isDigit) = true) :
    (c.isLower || c.isDigit || c = '-' || c = '_' || c = ':') = true := by
  simp only [Bool.or_eq_true] at h ⊢
  tauto

theorem keyChar_expand (c : Char) (h : (c.isLower || c.isDigit || c = '-' || c = '_') = true) :
    (c.isLower || c.isDigit || c = '-' || c = '_' || c = ':') = true := by
  simp only [Bool.or_eq_true] at h ⊢
  tauto

theorem nameChar_plain (c : Char) (h : (c.isLower || c.isDigit) = true) :
    isNameC c = true ∧ pyIsSpace c = false
    ∧ c ≠ '>' ∧ c ≠ '/' ∧ c ≠ '<' ∧ c ≠ '&' ∧ c ≠ '='
    ∧ c ≠ Char.ofNat 34 ∧ c ≠ Char.ofNat 39 ∧ c ≠ '!' := by
  have hne : ∀ d : Char, ((d.isLower || d.isDigit) = true → False) → c ≠ d := by
    intro d hd he
    subst he
    exact hd h
  refine ⟨?_, ?_, hne _ (by decide), hne _ (by decide), hne _ (by decide), hne _ (by decide),
    hne _ (by decide), hne _ (by decide), hne _ (by decide), hne _ (by decide)⟩
  · have h2 := h
    simp only [Bool.or_eq_true] at h2
    rcases h2 with h2 | h2
    · simp [isNameC, Char.isAlphanum, Char.isAlpha, h2]
    · simp [isNameC, Char.isAlphanum, h2]
  · by_contra hcon
    rw [Bool.not_eq_false] at hcon
    simp only [pyIsSpace, Bool.or_eq_true, decide_eq_true_iff] at hcon
    rcases hcon with ((((hc | hc) | hc) | hc) | hc) | hc <;>
      (subst hc; revert h; decide)

theorem keyChar_plain (c : Char) (h : (c.isLower || c.isDigit || c = '-' || c = '_') = true) :
    pyIsSpace c = false ∧ c ≠ '=' ∧ c ≠ '>' ∧ c ≠ '/' := by
  have hne : ∀ d : Char, ((d.isLower || d.isDigit || d = '-' || d = '_') = true → False) → c ≠ d := by
    intro d hd he
    subst he
    exact hd h
  refine ⟨?_, hne _ (by decide), hne _ (by decide), hne _ (by decide)⟩
  by_contra hcon
  rw [Bool.not_eq_false] at hcon
  simp only [pyIsSpace, Bool.or_eq_true, decide_eq_true_iff] at hcon
  rcases hcon with ((((hc | hc) | hc) | hc) | hc) | hc <;>
    (subst hc; revert h; decide)

theorem escapeChar_no_dquote (c : Char) : ∀ x ∈ (escapeChar c).data, x ≠ Char.ofNat 34 := by
  unfold escapeChar
  split_ifs with h1 h2 h3 h4
  · decide
  · decide
  · decide
  · decide
  · intro x hx
    have hx2 : x = c := by simpa [String.singleton] using hx
    subst hx2
    exact h4

theorem decodeEntsLoop_escape (cs : List Char) :
    decodeEntsLoop none (cs.flatMap (fun c => (escapeChar c).data)) = cs := by
  induction cs with
  | nil => rfl
  | cons c rest ih =>
    rw [List.flatMap_cons]
    by_cases h1 : c = '&'
    · subst h1
      show decodeEntsLoop none ('&' :: 'a' :: 'm' :: 'p' :: ';' :: rest.flatMap _) = _
      simp +decide [decodeEntsLoop, entLookup, ih]
    · by_cases h2 : c = '<'
      · subst h2
        show decodeEntsLoop none ('&' :: 'l' :: 't' :: ';' :: rest.flatMap _) = _
        simp +decide [decodeEntsLoop, entLookup, ih]
      · by_cases h3 : c = '>'
        · subst h3
          show decodeEntsLoop none ('&' :: 'g' :: 't' :: ';' :: rest.flatMap _) = _
          simp +decide [decodeEntsLoop, entLookup, ih]
        · by_cases h4 : c = Char.ofNat 34
          · subst h4
            show decodeEntsLoop none
              ('&' :: 'q' :: 'u' :: 'o' :: 't' :: ';' :: rest.flatMap _) = _
            simp +decide [decodeEntsLoop, entLookup, ih]
          · have hesc : escapeChar c = String.singleton c := by
              simp [escapeChar, h1, h2, h3, h4]
            rw [hesc]
            show decodeEntsLoop none (c :: rest.flatMap _) = _
            simp [decodeEntsLoop, h1, ih]

theorem decodeEnts_escape (v : String) : decodeEnts (htmlEscape v) = v := by
  show String.mk (decodeEntsLoop none (v.data.flatMap (fun c => (escapeChar c).data))) = v
  rw [decodeEntsLoop_escape]

theorem tokRun_text_acc (cs : List Char) :
    ∀ (acc t : List Char), (∀ c ∈ cs, ¬(c = '<' ∨ c = '&')) →
      tokRun (.text acc) (cs ++ t) = tokRun (.text (cs.reverse ++ acc)) t := by
  induction cs with
  | nil => intro acc t _; simp
  | cons c rest ih =>
    intro acc t h
    have hc := h c (by simp)
    push_neg at hc
    show tokRun (.text acc) (c :: (rest ++ t)) = _
    rw [show tokRun (.text acc) (c :: (rest ++ t))
        = tokRun (.text (c :: acc)) (rest ++ t) from by
      simp [tokRun, hc.1, hc.2]]
    rw [ih (c :: acc) t (fun x hx => h x (by simp [hx]))]
    simp

theorem tokRun_text_run (s : String) (t : List Char) (hs : textOk s)
    (ht : t = [] ∨ ∃ t', t = '<' :: t') :
    tokRun (.text []) (s.data ++ t) = Tok.textT s :: tokRun (.text []) t := by
  obtain ⟨hne, hchars⟩ := hs
  rw [tokRun_text_acc s.data [] t (fun c hc => hchars c hc)]
  have hrev : (s.data.reverse ++ []).reverse = s.data := by simp
  have hrevne : s.data.reverse ++ [] ≠ [] := by
    simpa using string_data_ne_nil hne
  rcases ht with ht | ⟨t', ht⟩
  · subst ht
    show tokFlush (.text (s.data.reverse ++ [])) = [Tok.textT s]
    have hie : (s.data.reverse ++ []).isEmpty = false := by
      simpa [List.isEmpty_iff] using hrevne
    simp [tokFlush, hie, hrev]
    exact string_data_ne_nil hne
  · subst ht
    show tokRun (.text (s.data.reverse ++ [])) ('<' :: t') = _
    rw [show tokRun (.text (s.data.reverse ++ [])) ('<' :: t')
        = emitText (s.data.reverse ++ []) (tokRun .lt t') from by simp [tokRun]]
    unfold emitText
    rw [if_neg (by simpa using hrevne), hrev]
    show _ = Tok.textT s :: emitText [] (tokRun .lt t')
    rfl

theorem tokRun_tname_acc (cs : List Char) :
    ∀ (acc t : List Char), (∀ c ∈ cs, isNameC c = true) →
      tokRun (.tname acc) (cs ++ t) = tokRun (.tname (cs.reverse ++ acc)) t := by
  induction cs with
  | nil => intro acc t _; simp
  | cons c rest ih =>
    intro acc t h
    have hc := h c (by simp)
    show tokRun (.tname acc) (c :: (rest ++ t)) = _
    rw [show tokRun (.tname acc) (c :: (rest ++ t))
        = tokRun (.tname (c :: acc)) (rest ++ t) from by simp [tokRun, hc]]
    rw [ih (c :: acc) t (fun x hx => h x (by simp [hx]))]
    simp

theorem tokRun_aname_acc (cs : List Char) :
    ∀ (acc t : List Char) (nm : String) (ats : List (String × Option String)),
      (∀ c ∈ cs, pyIsSpace c = false ∧ c ≠ '=' ∧ c ≠ '>' ∧ c ≠ '/') →
      tokRun (.aname nm ats acc) (cs ++ t) = tokRun (.aname nm ats (cs.reverse ++ acc)) t := by
  induction cs with
  | nil => intro acc t nm ats _; simp
  | cons c rest ih =>
    intro acc t nm ats h
    obtain ⟨hs, he, hg, hsl⟩ := h c (by simp)
    show tokRun (.aname nm ats acc) (c :: (rest ++ t)) = _
    rw [show tokRun (.aname nm ats acc) (c :: (rest ++ t))
        = tokRun (.aname nm ats (c :: acc)) (rest ++ t) from by
      simp [tokRun, hs, he, hg, hsl]]
    rw [ih (c :: acc) t nm ats (fun x hx => h x (by simp [hx]))]
    simp

theorem tokRun_adq_acc (cs : List Char) :
    ∀ (acc t : List Char) (nm an : String) (ats : List (String × Option String)),
      (∀ c ∈ cs, c ≠ Char.ofNat 34) →
      tokRun (.adq nm ats an acc) (cs ++ t) = tokRun (.adq nm ats an (cs.reverse ++ acc)) t := by
  induction cs with
  | nil => intro acc t nm an ats _; simp
  | cons c rest ih =>
    intro acc t nm an ats h
    have hc := h c (by simp)
    show tokRun (.adq nm ats an acc) (c :: (rest ++ t)) = _
    rw [show tokRun (.adq nm ats an acc) (c :: (rest ++ t))
        = tokRun (.adq nm ats an (c :: acc)) (rest ++ t) from by simp [tokRun, hc]]
    rw [ih (c :: acc) t nm an ats (fun x hx => h x (by simp [hx]))]
    simp

theorem tokRun_closing_acc (cs : List Char) :
    ∀ (acc t : List Char), (∀ c ∈ cs, c ≠ '>') →
      tokRun (.closing acc) (cs ++ t) = tokRun (.closing (cs.reverse ++ acc)) t := by
  induction cs with
  | nil => intro acc t _; simp
  | cons c rest ih =>
    intro acc t h
    have hc := h c (by simp)
    show tokRun (.closing acc) (c :: (rest ++ t)) = _
    rw [show tokRun (.closing acc) (c :: (rest ++ t))
        = tokRun (.closing (c :: acc)) (rest ++ t) from by simp [tokRun, hc]]
    rw [ih (c :: acc) t (fun x hx => h x (by simp [hx]))]
    simp

theorem tokRun_one_attr (k v : String) (hk : attrKeyOk k) (nm : String)
    (ats : List (String × Option String)) (rest : List Char) :
    tokRun (.battrs nm ats)
        (k.data ++ '=' :: Char.ofNat 34 :: ((htmlEscape v).data ++ Char.ofNat 34 :: rest))
      = tokRun (.battrs nm (ats ++ [(k, some v)])) rest := by
  obtain ⟨hkne, hkchars⟩ := hk
  obtain ⟨c0, ktail, hk0⟩ := List.exists_cons_of_ne_nil hkne
  have hkey : pyLower k = k :=
    pyLower_stable k (fun c hc => keyChar_expand c (hkchars c hc))
  obtain ⟨hs0, he0, hg0, hsl0⟩ := keyChar_plain c0 (hkchars c0 (by rw [hk0]; simp))
  have hescmem : ∀ x ∈ (htmlEscape v).data, x ≠ Char.ofNat 34 := by
    intro x hx
    obtain ⟨c, _, hx2⟩ := List.mem_flatMap.mp (by simpa [htmlEscape] using hx)
    exact escapeChar_no_dquote c x hx2
  rw [hk0]
  show tokRun (.battrs nm ats) (c0 :: (ktail ++ '=' :: Char.ofNat 34 ::
      ((htmlEscape v).data ++ Char.ofNat 34 :: rest))) = _
  rw [show tokRun (.battrs nm ats) (c0 :: (ktail ++ '=' :: Char.ofNat 34 ::
        ((htmlEscape v).data ++ Char.ofNat 34 :: rest)))
      = tokRun (.aname nm ats [c0]) (ktail ++ '=' :: Char.ofNat 34 ::
        ((htmlEscape v).data ++ Char.ofNat 34 :: rest)) from by
    simp [tokRun, hs0, hg0, hsl0]]
  rw [tokRun_aname_acc ktail [c0] _ nm ats
    (fun x hx => keyChar_plain x (hkchars x (by rw [hk0]; simp [hx])))]
  rw [show tokRun (.aname nm ats (ktail.reverse ++ [c0])) ('=' :: Char.ofNat 34 ::
        ((htmlEscape v).data ++ Char.ofNat 34 :: rest))
      = tokRun (.aeq nm ats (pyLower (String.mk (ktail.reverse ++ [c0]).reverse)))
        (Char.ofNat 34 :: ((htmlEscape v).data ++ Char.ofNat 34 :: rest)) from by
    simp [tokRun, pyIsSpace]]
  have hrevk : (ktail.reverse ++ [c0]).reverse = c0 :: ktail := by simp
  rw [hrevk, show String.mk (c0 :: ktail) = k from by rw [← hk0], hkey]
  rw [show tokRun (.aeq nm ats k) (Char.ofNat 34 ::
        ((htmlEscape v).data ++ Char.ofNat 34 :: rest))
      = tokRun (.adq nm ats k []) ((htmlEscape v).data ++ Char.ofNat 34 :: rest) from by
    simp [tokRun, pyIsSpace]]
  rw [tokRun_adq_acc (htmlEscape v).data [] _ nm k ats hescmem]
  rw [show tokRun (.adq nm ats k ((htmlEscape v).data.reverse ++ []))
        (Char.ofNat 34 :: rest)
      = tokRun (.battrs nm (ats ++ [(k, some (decodeEnts
          (String.mk ((htmlEscape v).data.reverse ++ []).reverse)))])) rest from by
    simp [tokRun]]
  have hdec : decodeEnts (String.mk ((htmlEscape v).data.reverse ++ []).reverse) = v := by
    have h2 : ((htmlEscape v).data.reverse ++ []).reverse = (htmlEscape v).data := by simp
    rw [h2]
    exact decodeEnts_escape v
  rw [hdec]

theorem tokRun_attrs (attrs : List (String × String)) :
    ∀ (nm : String) (ats : List (String × Option String)) (t : List Char),
      (∀ kv ∈ attrs, attrKeyOk kv.1) →
      tokRun (.battrs nm ats) ((renderAttrs attrs).data ++ '>' :: t)
        = Tok.start nm (ats ++ attrsToks attrs) false :: tokRun (.text []) t := by
  induction attrs with
  | nil =>
    intro nm ats t _
    show tokRun (.battrs nm ats) ('>' :: t) = _
    simp [tokRun, pyIsSpace, attrsToks]
  | cons kv rest ih =>
    obtain ⟨k, v⟩ := kv
    intro nm ats t hkeys
    show tokRun (.battrs nm ats) ((renderAttr (k, v) ++ renderAttrs rest).data ++ '>' :: t) = _
    rw [String.data_append]
    have hra : (renderAttr (k, v)).data
        = ' ' :: (k.data ++ '=' :: Char.ofNat 34 :: ((htmlEscape v).data ++ [Char.ofNat 34])) := by
      simp [renderAttr, String.data_append, String.singleton]
    rw [hra]
    have hinput : (' ' :: (k.data ++ '=' :: Char.ofNat 34 ::
          ((htmlEscape v).data ++ [Char.ofNat 34]))) ++ ((renderAttrs rest).data ++ '>' :: t)
        = ' ' :: (k.data ++ '=' :: Char.ofNat 34 ::
            ((htmlEscape v).data ++ Char.ofNat 34 :: ((renderAttrs rest).data ++ '>' :: t))) := by
      simp [List.append_assoc]
    rw [List.append_assoc, hinput]
    rw [show tokRun (.battrs nm ats) (' ' :: (k.data ++ '=' :: Char.ofNat 34 ::
          ((htmlEscape v).data ++ Char.ofNat 34 :: ((renderAttrs rest).data ++ '>' :: t))))
        = tokRun (.battrs nm ats) (k.data ++ '=' :: Char.ofNat 34 ::
          ((htmlEscape v).data ++ Char.ofNat 34 :: ((renderAttrs rest).data ++ '>' :: t)))
        from by simp [tokRun, pyIsSpace]]
    rw [tokRun_one_attr k v (hkeys (k, v) (by simp)) nm ats ((renderAttrs rest).data ++ '>' :: t)]
    rw [ih nm (ats ++ [(k, some v)]) t (fun kv2 h2 => hkeys kv2 (by simp [h2]))]
    simp [attrsToks]

theorem tokRun_open_tag (name : String) (attrs : List (String × String)) (t : List Char)
    (hname : tagNameOk name) (hkeys : ∀ kv ∈ attrs, attrKeyOk kv.1) :
    tokRun (.text []) ('<' :: (name.data ++ ((renderAttrs attrs).data ++ '>' :: t)))
      = Tok.start name (attrsToks attrs) false :: tokRun (.text []) t := by
  obtain ⟨hne, hchars, hhead⟩ := hname
  obtain ⟨c0, ntail, h0⟩ := List.exists_cons_of_ne_nil hne
  have hlow : pyLower name = name :=
    pyLower_stable name (fun c hc => nameChar_expand c (hchars c hc))
  have halpha : c0.isAlpha = true := hhead c0 (by rw [h0]; rfl)
  obtain ⟨hnc0, hs0, hg0, hsl0, hlt0, hamp0, heq0, hdq0, hsq0, hbang0⟩ :=
    nameChar_plain c0 (hchars c0 (by rw [h0]; simp))
  rw [show tokRun (.text []) ('<' :: (name.data ++ ((renderAttrs attrs).data ++ '>' :: t)))
      = tokRun .lt (name.data ++ ((renderAttrs attrs).data ++ '>' :: t)) from by
    simp [tokRun, emitText]]
  rw [h0]
  rw [show (c0 :: ntail) ++ ((renderAttrs attrs).data ++ '>' :: t)
      = c0 :: (ntail ++ ((renderAttrs attrs).data ++ '>' :: t)) from by simp]
  rw [show tokRun .lt (c0 :: (ntail ++ ((renderAttrs attrs).data ++ '>' :: t)))
      = tokRun (.tname [c0]) (ntail ++ ((renderAttrs attrs).data ++ '>' :: t)) from by
    simp [tokRun, hsl0, hbang0, halpha]]
  rw [tokRun_tname_acc ntail [c0] _
    (fun x hx => (nameChar_plain x (hchars x (by rw [h0]; simp [hx]))).1)]
  have hmk : String.mk ((ntail.reverse ++ [c0]).reverse) = name := by
    rw [show (ntail.reverse ++ [c0]).reverse = c0 :: ntail from by simp, ← h0]
  rcases attrs with _ | ⟨⟨k, v⟩, arest⟩
  · rw [show ((renderAttrs []).data ++ '>' :: t) = '>' :: t from rfl]
    rw [show tokRun (.tname (ntail.reverse ++ [c0])) ('>' :: t)
        = Tok.start (pyLower (String.mk (ntail.reverse ++ [c0]).reverse)) [] false
            :: tokRun (.text []) t from by simp [tokRun, isNameC]]
    rw [hmk, hlow]
    rfl
  · have hra : (renderAttrs ((k, v) :: arest)).data
        = ' ' :: (k.data ++ '=' :: Char.ofNat 34 ::
            ((htmlEscape v).data ++ Char.ofNat 34 :: (renderAttrs arest).data)) := by
      show (renderAttr (k, v) ++ renderAttrs arest).data = _
      rw [String.data_append]
      simp [renderAttr, String.data_append, String.singleton, List.append_assoc]
    rw [hra]
    rw [show (' ' :: (k.data ++ '=' :: Char.ofNat 34 ::
          ((htmlEscape v).data ++ Char.ofNat 34 :: (renderAttrs arest).data))) ++ '>' :: t
        = ' ' :: (k.data ++ '=' :: Char.ofNat 34 ::
          ((htmlEscape v).data ++ Char.ofNat 34 :: ((renderAttrs arest).data ++ '>' :: t)))
        from by simp [List.append_assoc]]
    rw [show tokRun (.tname (ntail.reverse ++ [c0])) (' ' :: (k.data ++ '=' :: Char.ofNat 34 ::
          ((htmlEscape v).data ++ Char.ofNat 34 :: ((renderAttrs arest).data ++ '>' :: t))))
        = tokRun (.battrs (pyLower (String.mk (ntail.reverse ++ [c0]).reverse)) [])
            (k.data ++ '=' :: Char.ofNat 34 ::
              ((htmlEscape v).data ++ Char.ofNat 34 :: ((renderAttrs arest).data ++ '>' :: t)))
        from by simp [tokRun, isNameC, pyIsSpace]]
    rw [hmk, hlow]
    rw [tokRun_one_attr k v (hkeys (k, v) (by simp)) name [] ((renderAttrs arest).data ++ '>' :: t)]
    rw [List.nil_append]
    rw [tokRun_attrs arest name [(k, some v)] t (fun kv2 h2 => hkeys kv2 (by simp [h2]))]
    simp [attrsToks]

theorem tokRun_close_tag (name : String) (t : List Char) (hname : tagNameOk name) :
    tokRun (.text []) ('<' :: '/' :: (name.data ++ '>' :: t))
      = Tok.endT name :: tokRun (.text []) t := by
  obtain ⟨hne, hchars, _⟩ := hname
  have hlow : pyLower name = name :=
    pyLower_stable name (fun c hc => nameChar_expand c (hchars c hc))
  rw [show tokRun (.text []) ('<' :: '/' :: (name.data ++ '>' :: t))
      = tokRun (.closing []) (name.data ++ '>' :: t) from by simp [tokRun, emitText]]
  rw [tokRun_closing_acc name.data []  _
    (fun x hx => (nameChar_plain x (hchars x hx)).2.2.1)]
  rw [show tokRun (.closing (name.data.reverse ++ [])) ('>' :: t)
      = Tok.endT (pyLower (String.mk (name.data.reverse ++ []).reverse)) :: tokRun (.text []) t
      from by simp [tokRun]]
  have hmkc : pyLower (String.mk ((name.data.reverse ++ []).reverse)) = name := by
    have hstep : (name.data.reverse ++ []).reverse = name.data := by simp
    rw [hstep]
    exact hlow
  rw [hmkc]

theorem render_data_head (m : _Node) : ∃ r, (_Node.render m).data = '<' :: r := by
  rcases m with ⟨name, attrs, cs⟩
  show ∃ r, (_Node.render (.mk name attrs cs)).data = '<' :: r
  unfold _Node.render
  split
  · exact ⟨name.data ++ ((renderAttrs attrs).data ++ ('>' :: [])), by
      simp [String.data_append]⟩
  · refine ⟨name.data ++ ((renderAttrs attrs).data ++ ('>' ::
      ((renderChildren cs).data ++ ('<' :: '/' :: (name.data ++ ['>']))))), ?_⟩
    simp [String.data_append]

mutual
theorem tokRun_node (m : _Node) : ∀ (t : List Char), wfNode m →
    tokRun (.text []) ((_Node.render m).data ++ t) = toksOfNode m ++ tokRun (.text []) t := by
  rcases m with ⟨name, attrs, cs⟩
  intro t h
  obtain ⟨hname, hattrs, hvoid, hsep, hch⟩ := h
  by_cases hv : VOID_ELEMENTS.contains name = true
  · have hrd : (_Node.render (.mk name attrs cs)).data ++ t
        = '<' :: (name.data ++ ((renderAttrs attrs).data ++ '>' :: t)) := by
      show (if VOID_ELEMENTS.contains name then
          "<" ++ name ++ renderAttrs attrs ++ ">"
        else ("<" ++ name ++ renderAttrs attrs ++ ">" ++ renderChildren cs
          ++ "</" ++ name ++ ">")).data ++ t = _
      rw [if_pos hv]
      simp [String.data_append]
    rw [hrd, tokRun_open_tag name attrs t hname hattrs.1]
    have ht : toksOfNode (.mk name attrs cs) = [Tok.start name (attrsToks attrs) false] := by
      show (if VOID_ELEMENTS.contains name then [Tok.start name (attrsToks attrs) false]
        else Tok.start name (attrsToks attrs) false :: (toksOfChildren cs ++ [Tok.endT name])) = _
      rw [if_pos hv]
    rw [ht]
    rfl
  · have hrd : (_Node.render (.mk name attrs cs)).data ++ t
        = '<' :: (name.data ++ ((renderAttrs attrs).data ++ '>' ::
            ((renderChildren cs).data ++ ('<' :: '/' :: (name.data ++ '>' :: t))))) := by
      show (if VOID_ELEMENTS.contains name then
          "<" ++ name ++ renderAttrs attrs ++ ">"
        else ("<" ++ name ++ renderAttrs attrs ++ ">" ++ renderChildren cs
          ++ "</" ++ name ++ ">")).data ++ t = _
      rw [if_neg hv]
      simp [String.data_append]
    rw [hrd, tokRun_open_tag name attrs _ hname hattrs.1]
    rw [tokRun_children cs _ hch hsep (Or.inr ⟨_, rfl⟩)]
    rw [tokRun_close_tag name t hname]
    have ht : toksOfNode (.mk name attrs cs)
        = Tok.start name (attrsToks attrs) false :: (toksOfChildren cs ++ [Tok.endT name]) := by
      show (if VOID_ELEMENTS.contains name then [Tok.start name (attrsToks attrs) false]
        else Tok.start name (attrsToks attrs) false :: (toksOfChildren cs ++ [Tok.endT name])) = _
      rw [if_neg hv]
    rw [ht]
    simp

theorem tokRun_children (cs : List NodeChild) : ∀ (t : List Char),
    wfChildren cs → childrenSeparated cs → (t = [] ∨ ∃ t', t = '<' :: t') →
    tokRun (.text []) ((renderChildren cs).data ++ t)
      = toksOfChildren cs ++ tokRun (.text []) t := by
  match cs with
  | [] =>
    intro t _ _ _
    show tokRun (.text []) ([] ++ t) = [] ++ tokRun (.text []) t
    simp
  | .elem m :: rest =>
    intro t hch hsep ht
    obtain ⟨hm, hrest⟩ := hch
    have hrd : (renderChildren (.elem m :: rest)).data ++ t
        = (_Node.render m).data ++ ((renderChildren rest).data ++ t) := by
      show (_Node.render m ++ renderChildren rest).data ++ t = _
      simp [String.data_append]
    rw [hrd, tokRun_node m _ hm]
    rw [tokRun_children rest t hrest hsep.tail ht]
    simp [toksOfChildren]
  | .text s :: rest =>
    intro t hch hsep ht
    obtain ⟨hs, hrest⟩ := hch
    have hrd : (renderChildren (.text s :: rest)).data ++ t
        = s.data ++ ((renderChildren rest).data ++ t) := by
      show (s ++ renderChildren rest).data ++ t = _
      simp [String.data_append]
    rw [hrd]
    have hbound : (renderChildren rest).data ++ t = []
        ∨ ∃ t', (renderChildren rest).data ++ t = '<' :: t' := by
      match rest with
      | [] =>
        rcases ht with ht | ⟨t', ht⟩
        · left; simp [renderChildren, ht]
        · right; exact ⟨t', by simp [renderChildren, ht]⟩
      | .elem m' :: rest' =>
        obtain ⟨r, hr⟩ := render_data_head m'
        right
        refine ⟨r ++ ((renderChildren rest').data ++ t), ?_⟩
        show ((_Node.render m' ++ renderChildren rest').data) ++ t = _
        simp [String.data_append, hr]
      | .text s' :: rest' =>
        exact absurd (List.chain'_cons.mp hsep).1 (by simp [isTextChild])
    rw [tokRun_text_run s _ hs hbound]
    rw [tokRun_children rest t hrest hsep.tail ht]
    simp [toksOfChildren]
end

theorem tagNameChk_sound (s : String) (h : tagNameChk s = true) : tagNameOk s := by
  simp only [tagNameChk, Bool.and_eq_true] at h
  obtain ⟨⟨h1, h2⟩, h3⟩ := h
  refine ⟨?_, ?_, ?_⟩
  · intro hc
    simp [hc] at h1
  · intro c hc
    exact List.all_eq_true.mp h2 c hc
  · intro c hc
    rw [hc] at h3
    exact h3

theorem attrKeyChk_sound (s : String) (h : attrKeyChk s = true) : attrKeyOk s := by
  simp only [attrKeyChk, Bool.and_eq_true] at h
  obtain ⟨h1, h2⟩ := h
  refine ⟨?_, ?_⟩
  · intro hc
    simp [hc] at h1
  · intro c hc
    exact List.all_eq_true.mp h2 c hc

theorem attrsChk_sound (attrs : List (String × String)) (h : attrsChk attrs = true) :
    attrsOk attrs := by
  simp only [attrsChk, Bool.and_eq_true] at h
  obtain ⟨h1, h2⟩ := h
  refine ⟨?_, of_decide_eq_true h2⟩
  intro kv hkv
  exact attrKeyChk_sound kv.1 (List.all_eq_true.mp h1 kv hkv)

theorem textChk_sound (s : String) (h : textChk s = true) : textOk s := by
  simp only [textChk, Bool.and_eq_true] at h
  obtain ⟨h1, h2⟩ := h
  refine ⟨?_, ?_⟩
  · intro hc
    simp [hc] at h1
  · intro c hc
    have := List.all_eq_true.mp h2 c hc
    simpa using this

theorem sepChk_sound : ∀ (cs : List NodeChild), sepChk cs = true → childrenSeparated cs
  | [], _ => List.chain'_nil
  | [a], _ => List.chain'_singleton a
  | a :: b :: rest, h => by
    simp only [sepChk, Bool.and_eq_true] at h
    refine List.chain'_cons.mpr ⟨?_, sepChk_sound (b :: rest) h.2⟩
    have h1 := h.1
    simp only [Bool.not_eq_eq_eq_not, Bool.not_true, Bool.and_eq_false_iff] at h1
    rintro ⟨ha, hb⟩
    rcases h1 with h1 | h1
    · rw [ha] at h1; cases h1
    · rw [hb] at h1; cases h1

mutual
theorem wfNodeChk_sound : ∀ (m : _Node), wfNodeChk m = true → wfNode m
  | .mk name attrs cs, h => by
    simp only [wfNodeChk, Bool.and_eq_true] at h
    obtain ⟨⟨⟨⟨h1, h2⟩, h3⟩, h4⟩, h5⟩ := h
    refine ⟨tagNameChk_sound name h1, attrsChk_sound attrs h2, ?_, sepChk_sound cs h4,
      wfChildrenChk_sound cs h5⟩
    intro hv
    simp only [Bool.or_eq_true, Bool.not_eq_eq_eq_not, Bool.not_true] at h3
    rcases h3 with h3 | h3
    · rw [hv] at h3; cases h3
    · exact List.isEmpty_iff.mp h3
theorem wfChildrenChk_sound : ∀ (cs : List NodeChild), wfChildrenChk cs = true → wfChildren cs
  | [], _ => trivial
  | .elem m :: rest, h => by
    simp only [wfChildrenChk, Bool.and_eq_true] at h
    exact ⟨wfNodeChk_sound m h.1, wfChildrenChk_sound rest h.2⟩
  | .text s :: rest, h => by
    simp only [wfChildrenChk, Bool.and_eq_true] at h
    exact ⟨textChk_sound s h.1, wfChildrenChk_sound rest h.2⟩
end

theorem dictInsert_fresh (d : List (String × String)) (k v : String)
    (h : ∀ p ∈ d, p.1 ≠ k) : dictInsert d k v = d ++ [(k, v)] := by
  unfold dictInsert
  rw [if_neg]
  intro hc
  rw [List.any_eq_true] at hc
  obtain ⟨p, hp, hpk⟩ := hc
  exact h p hp (of_decide_eq_true hpk)

theorem mkAttrs_attrsToks_aux (attrs : List (String × String)) :
    ∀ (d : List (String × String)),
    (attrs.map Prod.fst).Nodup →
    (∀ p ∈ d, ∀ q ∈ attrs, p.1 ≠ q.1) →
    List.foldl (fun d kv => dictInsert d kv.1 (kv.2.getD "")) d (attrsToks attrs)
      = d ++ attrs := by
  induction attrs with
  | nil =>
    intro d _ _
    simp [attrsToks]
  | cons kv rest ih =>
    intro d hnd hdisj
    obtain ⟨k, v⟩ := kv
    have hstep : List.foldl (fun d kv => dictInsert d kv.1 (kv.2.getD "")) d
        (attrsToks ((k, v) :: rest))
        = List.foldl (fun d kv => dictInsert d kv.1 (kv.2.getD ""))
            (dictInsert d k v) (attrsToks rest) := rfl
    rw [hstep]
    have hfresh : dictInsert d k v = d ++ [(k, v)] := by
      refine dictInsert_fresh d k v ?_
      intro p hp
      exact hdisj p hp (k, v) (List.mem_cons_self _ _)
    rw [hfresh]
    have hknotin : k ∉ rest.map Prod.fst := by
      have := hnd
      rw [List.map_cons, List.nodup_cons] at this
      exact this.1
    have hrec := ih (d ++ [(k, v)])
      (by rw [List.map_cons, List.nodup_cons] at hnd; exact hnd.2)
      (by
        intro p hp q hq
        rcases List.mem_append.mp hp with hp | hp
        · exact hdisj p hp q (List.mem_cons_of_mem _ hq)
        · have hpk : p = (k, v) := by simpa using hp
          rw [hpk]
          intro hkq
          apply hknotin
          have hk : k = q.1 := hkq
          rw [hk]
          exact List.mem_map_of_mem Prod.fst hq)
    rw [hrec]
    simp

theorem mkAttrs_attrsToks (attrs : List (String × String))
    (h : (attrs.map Prod.fst).Nodup) : mkAttrs (attrsToks attrs) = attrs := by
  have := mkAttrs_attrsToks_aux attrs [] h (by intro p hp; cases hp)
  simpa using this

theorem pyLower_of_tagNameOk (s : String) (h : tagNameOk s) : pyLower s = s := by
  refine pyLower_stable s ?_
  intro c hc
  have hcase := h.2.1 c hc
  simp only [Bool.or_eq_true] at hcase
  rcases hcase with hcl | hcd
  · simp [hcl]
  · simp [hcd]

theorem endtagWalk_hit (tag : String) (f g : Frame) (rest : List Frame)
    (h : pyLower f.name = tag) :
    endtagWalk tag f (g :: rest) = (f, g :: rest) := by
  unfold endtagWalk
  rw [if_pos h]

mutual
theorem feed_node (m : _Node) : ∀ (f : Frame) (rest : List Frame), wfNode m →
    List.foldl stepTok (f :: rest) (toksOfNode m)
      = { f with children := f.children ++ [.elem m] } :: rest := by
  rcases m with ⟨name, attrs, cs⟩
  intro f rest h
  obtain ⟨hname, hattrs, hvoid, hsep, hch⟩ := h
  have hlow : pyLower name = name := pyLower_of_tagNameOk name hname
  have hmk : mkAttrs (attrsToks attrs) = attrs := mkAttrs_attrsToks attrs hattrs.2
  by_cases hv : VOID_ELEMENTS.contains name = true
  · have ht : toksOfNode (.mk name attrs cs) = [Tok.start name (attrsToks attrs) false] := by
      show (if VOID_ELEMENTS.contains name then [Tok.start name (attrsToks attrs) false]
        else Tok.start name (attrsToks attrs) false :: (toksOfChildren cs ++ [Tok.endT name])) = _
      rw [if_pos hv]
    rw [ht]
    have hcs : cs = [] := hvoid hv
    subst hcs
    show handle_starttag name (attrsToks attrs) (f :: rest) = _
    unfold handle_starttag
    rw [hlow, if_pos hv, hmk]
    rfl
  · have ht : toksOfNode (.mk name attrs cs)
        = Tok.start name (attrsToks attrs) false :: (toksOfChildren cs ++ [Tok.endT name]) := by
      show (if VOID_ELEMENTS.contains name then [Tok.start name (attrsToks attrs) false]
        else Tok.start name (attrsToks attrs) false :: (toksOfChildren cs ++ [Tok.endT name])) = _
      rw [if_neg hv]
    rw [ht, List.foldl_cons]
    have hstart : stepTok (f :: rest) (Tok.start name (attrsToks attrs) false)
        = ⟨name, attrs, []⟩ :: f :: rest := by
      show handle_starttag name (attrsToks attrs) (f :: rest) = _
      unfold handle_starttag
      rw [hlow, if_neg hv, hmk]
    rw [hstart, List.foldl_append]
    rw [feed_children cs ⟨name, attrs, []⟩ (f :: rest) hch]
    show handle_endtag name ((⟨name, attrs, [] ++ cs⟩ : Frame) :: f :: rest) = _
    show (match endtagWalk (pyLower name) ⟨name, attrs, [] ++ cs⟩ (f :: rest) with
      | (g, []) => [g]
      | (g, p :: below) => closeInto g p :: below) = _
    rw [endtagWalk_hit (pyLower name) ⟨name, attrs, [] ++ cs⟩ f rest rfl]
    show closeInto ⟨name, attrs, [] ++ cs⟩ f :: rest = _
    unfold closeInto
    simp [Frame.toNode]

theorem feed_children (cs : List NodeChild) : ∀ (f : Frame) (rest : List Frame),
    wfChildren cs →
    List.foldl stepTok (f :: rest) (toksOfChildren cs)
      = { f with children := f.children ++ cs } :: rest := by
  match cs with
  | [] =>
    intro f rest _
    show f :: rest = _
    simp
  | .elem m :: rest' =>
    intro f rest hch
    obtain ⟨hm, hrest⟩ := hch
    show List.foldl stepTok (f :: rest) (toksOfNode m ++ toksOfChildren rest') = _
    rw [List.foldl_append, feed_node m f rest hm]
    rw [feed_children rest' _ rest hrest]
    simp
  | .text s :: rest' =>
    intro f rest hch
    obtain ⟨hs, hrest⟩ := hch
    show List.foldl stepTok (f :: rest) (Tok.textT s :: toksOfChildren rest') = _
    rw [List.foldl_cons]
    have hstep : stepTok (f :: rest) (Tok.textT s)
        = { f with children := f.children ++ [.text s] } :: rest := by
      show handle_data s (f :: rest) = _
      unfold handle_data
      rw [if_neg hs.1]
      rfl
    rw [hstep, feed_children rest' _ rest hrest]
    simp
end

/-- C4: the serialize/re-parse round trip on a node's children is
exact for well-formed trees: when the node's name and attribute keys
are well formed, void elements are childless, text runs are non-empty,
free of `<` and `&`, and not adjacent, re-parsing `render_contents`
(the string `decode_contents` returns) rebuilds the very same child
list — same tag names, same attribute key/value pairs, same structure
and same text.  (The unconditional claim is refuted by
`decode_contents_roundtrip_cex`: entity-decoded text such as `<b>`
re-parses as markup.) -/
theorem decode_contents_roundtrip (n : _Node) (h : wfNode n) :
    (parseDoc n.render_contents).children = n.children := by
  rcases n with ⟨name, attrs, cs⟩
  obtain ⟨hname, hattrs, hvoid, hsep, hch⟩ := h
  show (parseDoc (renderChildren cs)).children = cs
  have htoks : tokenize (renderChildren cs) = toksOfChildren cs := by
    unfold tokenize
    have hnil : (renderChildren cs).data = (renderChildren cs).data ++ [] := by simp
    rw [hnil, tokRun_children cs [] hch hsep (Or.inl rfl)]
    simp [tokRun, tokFlush]
  have hstack : buildStack (toksOfChildren cs) = [⟨"__root__", [], [] ++ cs⟩] := by
    unfold buildStack initStack
    rw [feed_children cs ⟨"__root__", [], []⟩ [] hch]
  unfold parseDoc
  rw [htoks, hstack]
  show (finishStack ⟨"__root__", [], [] ++ cs⟩ []).toNode.children = cs
  simp [finishStack, Frame.toNode, _Node.children]

theorem decode_contents_roundtrip_witness :
    wfNode (.mk "div" [("id", "x")]
        [.text "hi", .elem (.mk "b" [] [.text "z"]), .text "w"])
    ∧ (parseDoc (_Node.render_contents (.mk "div" [("id", "x")]
        [.text "hi", .elem (.mk "b" [] [.text "z"]), .text "w"]))).children
      = [.text "hi", .elem (.mk "b" [] [.text "z"]), .text "w"] := by
  have hwf : wfNode (.mk "div" [("id", "x")]
      [.text "hi", .elem (.mk "b" [] [.text "z"]), .text "w"]) :=
    wfNodeChk_sound _ (by decide)
  exact ⟨hwf, decode_contents_roundtrip _ hwf⟩
